import Mathlib

set_option maxHeartbeats 1000000
set_option linter.unusedVariables false

/-!
Shallow embedding of the MiyoMangaReader offline download/queue manager
(`DownloadService` in `downloadService.ts`), together with theorems about
its queue invariants, its sequential download engine, and its control API.

Stateful TypeScript is embedded as explicit state passing on `EngineState`.
Asynchronous interleavings (pause/resume/cancel requests arriving between
awaited operations) are modelled by an event schedule applied at the
engine's per-page checkpoint, which is exactly the granularity at which the
real code observes external status changes.  `Date.now()` is modelled by a
monotone counter threaded through the state.
-/

/-- `DownloadStatus` enum from `types.ts`. -/
inductive DownloadStatus where
  | PENDING
  | DOWNLOADING
  | COMPLETED
  | FAILED
  | PAUSED
  | CANCELLED
  deriving DecidableEq, Repr

/-- `DownloadTask` record from `types.ts`; `progress`, page counts and
timestamps are JS numbers used only at nonnegative integer values. -/
structure DownloadTask where
  id : String
  mangaId : String
  chapterId : String
  sourceId : String
  status : DownloadStatus
  progress : Nat
  totalPages : Nat
  downloadedPages : Nat
  error : Option String
  createdAt : Nat
  updatedAt : Nat
  deriving DecidableEq, Repr

/-- The fields of `Manga` that `DownloadService` reads (`manga.id`,
`manga.source`); the remaining presentation fields are irrelevant here. -/
structure Manga where
  id : String
  source : String
  deriving DecidableEq, Repr

/-- The field of `MangaChapter` that `DownloadService` reads beyond building
the chapter mock (`chapter.id`). -/
structure MangaChapter where
  id : String
  deriving DecidableEq, Repr

/-- `FileSystem.documentDirectory`, an opaque external root path. -/
def documentDirectory : String := "file:///data/"

/-- `DOWNLOAD_DIR` constant. -/
def DOWNLOAD_DIR : String := documentDirectory ++ "downloads/"

/-- `getChapterDirectory(mangaId, chapterId)`. -/
def getChapterDirectory (mangaId chapterId : String) : String :=
  DOWNLOAD_DIR ++ mangaId ++ "/" ++ chapterId ++ "/"

/-- `Math.round(num / den)` for nonnegative operands:
`floor(num/den + 1/2) = (2*num + den) / (2*den)` in integer arithmetic. -/
def jsRound (num den : Nat) : Nat := (2 * num + den) / (2 * den)

/-- `String(i).padStart(4, '0')`. -/
def padStart4 (s : String) : String :=
  if s.length < 4 then String.mk (List.replicate (4 - s.length) '0') ++ s else s

/-- The page file name `page_XXXX.jpg` built at line 257 of the source. -/
def pageFileName (i : Nat) : String :=
  "page_" ++ padStart4 (toString i) ++ ".jpg"

/-- The hierarchical file store, abstracted to the operations the service
uses: a set of existing directories and a listing of (directory, file name)
entries.  Writing an already-present file overwrites it in place (its
directory listing entry is unchanged). -/
structure FileSystem where
  dirs : List String
  files : List (String × String)
  deriving DecidableEq, Repr

/-- `ensureDirectoryExists`: `getInfoAsync` then `makeDirectoryAsync`. -/
def FileSystem.ensureDir (fs : FileSystem) (dir : String) : FileSystem :=
  if dir ∈ fs.dirs then fs else { fs with dirs := fs.dirs ++ [dir] }

/-- `FileSystem.downloadAsync(url, dir ++ name)`: the byte-fetch primitive's
effect on the store, on success. -/
def FileSystem.writeFile (fs : FileSystem) (dir name : String) : FileSystem :=
  if (dir, name) ∈ fs.files then fs
  else { fs with files := fs.files ++ [(dir, name)] }

/-- `FileSystem.deleteAsync(dir, \x7b idempotent: true \x7d)`: removes the
directory and everything under it; deleting an absent directory is a no-op
rather than an error. -/
def FileSystem.deleteDir (fs : FileSystem) (dir : String) : FileSystem :=
  { dirs := fs.dirs.filter (fun d => d ≠ dir),
    files := fs.files.filter (fun p => p.1 ≠ dir) }

/-- `FileSystem.readDirectoryAsync(dir)`. -/
def FileSystem.readDir (fs : FileSystem) (dir : String) : List String :=
  (fs.files.filter (fun p => p.1 = dir)).map Prod.snd

/-- The whole mutable state of the service: the in-memory queue, the
`isProcessing` guard, the file store, the history of persisted/notified
queue snapshots (one entry per `saveQueue` call, which both writes the blob
to `AsyncStorage` and invokes every subscriber), the `Date.now()` clock and
the checkpoint counter used to index the external-event schedule. -/
structure EngineState where
  queue : List DownloadTask
  isProcessing : Bool
  fs : FileSystem
  snapshots : List (List DownloadTask)
  now : Nat
  tick : Nat
  deriving DecidableEq, Repr

/-- `saveQueue()`: persist the whole queue and notify all subscribers.
Each call appends one observed snapshot of the task list. -/
def saveQueue (st : EngineState) : EngineState :=
  { st with snapshots := st.snapshots ++ [st.queue] }

/-- Mutating the task object found by `find` / `findIndex`: JS mutates that
single object in place, which is the first list element with the given id. -/
def updateFirst (tid : String) (f : DownloadTask → DownloadTask) :
    List DownloadTask → List DownloadTask
  | [] => []
  | t :: ts => if t.id = tid then f t :: ts else t :: updateFirst tid f ts

/-- `splice(findIndex(...), 1)`: remove the first task with the given id. -/
def removeFirst (tid : String) : List DownloadTask → List DownloadTask
  | [] => []
  | t :: ts => if t.id = tid then ts else t :: removeFirst tid ts

/-- `pauseDownload(taskId)`. -/
def pauseDownload (tid : String) (st : EngineState) : EngineState :=
  match st.queue.find? (fun t => t.id == tid) with
  | none => st
  | some t =>
    if t.status = DownloadStatus.DOWNLOADING then
      saveQueue
        { st with
          queue := updateFirst tid
            (fun u => { u with status := DownloadStatus.PAUSED,
                               updatedAt := st.now }) st.queue,
          now := st.now + 1 }
    else st

/-- `resumeDownload(taskId)` without its trailing `processQueue()` trigger;
while the engine is active that trigger is a no-op (the `isProcessing`
guard), and top-level resumes are modelled by composing with `processQueue`
explicitly. -/
def resumeDownload (tid : String) (st : EngineState) : EngineState :=
  match st.queue.find? (fun t => t.id == tid) with
  | none => st
  | some t =>
    if t.status = DownloadStatus.PAUSED then
      saveQueue
        { st with
          queue := updateFirst tid
            (fun u => { u with status := DownloadStatus.PENDING,
                               updatedAt := st.now }) st.queue,
          now := st.now + 1 }
    else st

/-- `cancelDownload(taskId)`: best-effort recursive delete of the chapter
directory, then remove the task record, then persist. -/
def cancelDownload (tid : String) (st : EngineState) : EngineState :=
  match st.queue.find? (fun t => t.id == tid) with
  | none => st
  | some t =>
    saveQueue
      { st with
        fs := st.fs.deleteDir (getChapterDirectory t.mangaId t.chapterId),
        queue := removeFirst tid st.queue }

/-- An external control request that can arrive between two awaited
operations of the engine. -/
inductive Event where
  | pause (tid : String)
  | resume (tid : String)
  | cancel (tid : String)
  deriving DecidableEq, Repr

/-- Run one external request against the state.  `resume`'s re-trigger of
`processQueue` is a no-op here because events run while `isProcessing` is
set. -/
def applyEvent (st : EngineState) : Event → EngineState
  | Event.pause tid => pauseDownload tid st
  | Event.resume tid => resumeDownload tid st
  | Event.cancel tid => cancelDownload tid st

def applyEvents (st : EngineState) (evs : List Event) : EngineState :=
  evs.foldl applyEvent st

/-- One suspension point of the per-page loop: the scheduled external
requests for the current checkpoint run, and the checkpoint counter
advances. -/
def checkpoint (sched : Nat → List Event) (st : EngineState) : EngineState :=
  applyEvents { st with tick := st.tick + 1 } (sched st.tick)

/-- The external collaborators of `downloadChapter`: the native-module
availability flag, `mangaService.getPageList` (as the length of the
returned page array, keyed by source and chapter), and the combined
`getPageUrl` + `FileSystem.downloadAsync` outcome per page index. -/
structure DownloadEnv where
  nativeAvailable : Bool
  pageCount : String → String → Except String Nat
  fetchPage : String → Nat → Except String Unit

/-- The successful-page bookkeeping of lines 262-265: `downloadedPages`,
`progress = Math.round(((i+1)/n)*100)`, `updatedAt`, then persist. -/
def recordPage (tid : String) (n i : Nat) (st : EngineState) : EngineState :=
  saveQueue
    { st with
      queue := updateFirst tid
        (fun u => { u with downloadedPages := i + 1,
                           progress := jsRound (100 * (i + 1)) n,
                           updatedAt := st.now }) st.queue,
      now := st.now + 1 }

/-- The loop-exit bookkeeping of lines 272-275: `COMPLETED`,
`progress = 100`, `updatedAt`, persist. -/
def markCompleted (tid : String) (st : EngineState) : EngineState :=
  saveQueue
    { st with
      queue := updateFirst tid
        (fun u => { u with status := DownloadStatus.COMPLETED,
                           progress := 100,
                           updatedAt := st.now }) st.queue,
      now := st.now + 1 }

/-- The per-page loop of `downloadChapter` (lines 248-270), structurally
recursive on the number `k` of pages still to process; `i` is the current
page index.  At each iteration the scheduled external events fire, then the
task's current status is re-read from the queue; a task that is no longer
`DOWNLOADING` (or was removed) stops the loop without marking success or
failure.  After the loop the task is marked `COMPLETED` with
`progress = 100`.  A per-page failure propagates as `Except.error`. -/
def pageLoop (env : DownloadEnv) (sched : Nat → List Event)
    (tid chId dir : String) (n : Nat) :
    Nat → Nat → EngineState → EngineState × Except String Unit
  | 0, _, st => (markCompleted tid st, Except.ok ())
  | k + 1, i, st =>
    let st := checkpoint sched st
    match st.queue.find? (fun t => t.id == tid) with
    | none => (st, Except.ok ())
    | some cur =>
      if cur.status = DownloadStatus.DOWNLOADING then
        match env.fetchPage chId i with
        | Except.error e => (st, Except.error e)
        | Except.ok _ =>
          pageLoop env sched tid chId dir n k (i + 1)
            (recordPage tid n i { st with fs := st.fs.writeFile dir (pageFileName i) })
      else (st, Except.ok ())

/-- The queue after the claim mark of lines 221-222. -/
def claimedQueue (task : DownloadTask) (st : EngineState) : List DownloadTask :=
  updateFirst task.id
    (fun u => { u with status := DownloadStatus.DOWNLOADING,
                       updatedAt := st.now }) st.queue

/-- Lines 221-223: mark the claimed task `DOWNLOADING` and persist. -/
def markClaimed (task : DownloadTask) (st : EngineState) : EngineState :=
  saveQueue { st with queue := claimedQueue task st, now := st.now + 1 }

/-- Lines 242-243: record `totalPages` from the fetched page list, persist. -/
def recordTotal (task : DownloadTask) (n : Nat) (st : EngineState) : EngineState :=
  saveQueue
    { st with
      queue := updateFirst task.id
        (fun u => { u with totalPages := n }) st.queue }

/-- `downloadChapter(task)` (lines 220-276): mark `DOWNLOADING` and persist,
require the native module, fetch the page list, record `totalPages` and
persist, ensure the chapter directory, then run the per-page loop. -/
def downloadChapter (env : DownloadEnv) (sched : Nat → List Event)
    (task : DownloadTask) (st : EngineState) : EngineState × Except String Unit :=
  let st := markClaimed task st
  if env.nativeAvailable then
    match env.pageCount task.sourceId task.chapterId with
    | Except.error e => (st, Except.error e)
    | Except.ok n =>
      let st := recordTotal task n st
      let dir := getChapterDirectory task.mangaId task.chapterId
      let st := { st with fs := st.fs.ensureDir dir }
      pageLoop env sched task.id task.chapterId dir n n 0 st
  else (st, Except.error ("Native module required for downloading"))

/-- The catch of lines 203-209: mark the claimed task `FAILED` with the
error's message, persist. -/
def markFailed (tid : String) (e : String) (st : EngineState) : EngineState :=
  saveQueue
    { st with
      queue := updateFirst tid
        (fun u => { u with status := DownloadStatus.FAILED,
                           error := some e,
                           updatedAt := st.now }) st.queue,
      now := st.now + 1 }

/-- `processQueue()` (lines 190-215): the single-active-task guard, FIFO
claim of the first `PENDING` task, the task-boundary catch that turns any
failure into a persisted `FAILED` state, and the recursive drain of the
backlog.  The structural recursion of the source is bounded here by
`fuel`. -/
def processQueue (env : DownloadEnv) (sched : Nat → List Event) :
    Nat → EngineState → EngineState
  | 0, st => st
  | fuel + 1, st =>
    if st.isProcessing then st
    else
      match st.queue.find? (fun t => t.status == DownloadStatus.PENDING) with
      | none => st
      | some task =>
        let st := { st with isProcessing := true }
        let res := downloadChapter env sched task st
        let st :=
          match res.2 with
          | Except.ok _ => res.1
          | Except.error e => markFailed task.id e res.1
        processQueue env sched fuel { st with isProcessing := false }

/-- `queueDownload(manga, chapter)` (lines 105-138): idempotent enqueue on
the `(mangaId, chapterId)` pair, then persist and trigger the engine.  The
returned record is the existing task when one is found, else the freshly
created `PENDING` task. -/
def queueDownload (env : DownloadEnv) (sched : Nat → List Event) (fuel : Nat)
    (manga : Manga) (chapter : MangaChapter) (st : EngineState) :
    EngineState × DownloadTask :=
  match st.queue.find? (fun t => t.mangaId == manga.id && t.chapterId == chapter.id) with
  | some existing => (st, existing)
  | none =>
    let task : DownloadTask :=
      { id := manga.id ++ "_" ++ chapter.id ++ "_" ++ toString st.now,
        mangaId := manga.id,
        chapterId := chapter.id,
        sourceId := manga.source,
        status := DownloadStatus.PENDING,
        progress := 0,
        totalPages := 0,
        downloadedPages := 0,
        error := none,
        createdAt := st.now,
        updatedAt := st.now }
    let st := saveQueue { st with queue := st.queue ++ [task], now := st.now + 1 }
    (processQueue env sched fuel st, task)

/-- `getTasks()`. -/
def getTasks (st : EngineState) : List DownloadTask := st.queue

/-- `isChapterDownloaded(mangaId, chapterId)`. -/
def isChapterDownloaded (st : EngineState) (mangaId chapterId : String) : Bool :=
  match st.queue.find? (fun t => t.mangaId == mangaId && t.chapterId == chapterId) with
  | some t => t.status == DownloadStatus.COMPLETED
  | none => false

/-- Lexicographic comparison of code-unit sequences, the order used by the
JS default `Array.sort()` on these ASCII file names. -/
def charsLe : List Char → List Char → Bool
  | [], _ => true
  | _ :: _, [] => false
  | c :: cs, d :: ds =>
    if c.val < d.val then true
    else if d.val < c.val then false
    else charsLe cs ds

def strLe (a b : String) : Bool := charsLe a.data b.data

/-- `startsWith` on code-unit lists. -/
def charsStart : List Char → List Char → Bool
  | _, [] => true
  | [], _ :: _ => false
  | c :: cs, d :: ds => if c = d then charsStart cs ds else false

/-- JS `String.prototype.endsWith`. -/
def strEnds (s suf : String) : Bool := charsStart s.data.reverse suf.data.reverse

/-- `getDownloadedPages(mangaId, chapterId)` (lines 291-307): empty when
the chapter directory does not exist, else the `.jpg` entries of the
directory listing, sorted lexicographically (JS `Array.sort()`), prefixed
with the directory path. -/
def getDownloadedPages (st : EngineState) (mangaId chapterId : String) :
    List String :=
  let dir := getChapterDirectory mangaId chapterId
  if dir ∈ st.fs.dirs then
    ((((st.fs.readDir dir).filter (fun f => strEnds f (".jpg"))).insertionSort
        (fun a b => strLe a b = true)).map (fun f => dir ++ f))
  else []

/-! ## Shared fixtures and structural lemmas -/

/-- An environment whose provider succeeds on every call and reports `n`
pages for every chapter. -/
def okEnv (n : Nat) : DownloadEnv :=
  { nativeAvailable := true,
    pageCount := fun _ _ => Except.ok n,
    fetchPage := fun _ _ => Except.ok () }

/-- An environment with no native module configured. -/
def trivEnv : DownloadEnv :=
  { nativeAvailable := false,
    pageCount := fun _ _ => Except.error (""),
    fetchPage := fun _ _ => Except.error ("") }

/-- The empty external-event schedule. -/
def noEvents : Nat → List Event := fun _ => []

/-- A schedule that requests a pause of task `tid` at checkpoint `n`. -/
def pauseAt (n : Nat) (tid : String) : Nat → List Event :=
  fun t => if t = n then [Event.pause tid] else []

def baseFs : FileSystem := { dirs := [DOWNLOAD_DIR], files := [] }

/-- A task record as `queueDownload` would create it (modulo timestamps). -/
def mkTask (tid m c s : String) (status : DownloadStatus) : DownloadTask :=
  { id := tid, mangaId := m, chapterId := c, sourceId := s,
    status := status, progress := 0, totalPages := 0, downloadedPages := 0,
    error := none, createdAt := 0, updatedAt := 0 }

theorem find?_id_split (tid : String) :
    ∀ (q : List DownloadTask) (t : DownloadTask),
      q.find? (fun u => u.id == tid) = some t →
      ∃ pre post, q = pre ++ t :: post ∧ (∀ u ∈ pre, u.id ≠ tid) ∧ t.id = tid := by
  intro q
  induction q with
  | nil => intro t h; simp [List.find?] at h
  | cons x xs ih =>
    intro t h
    by_cases hx : x.id = tid
    · rw [List.find?_cons_of_pos _ (by simpa using hx)] at h
      obtain rfl : x = t := Option.some.inj h
      exact ⟨[], xs, rfl, by simp, hx⟩
    · rw [List.find?_cons_of_neg _ (by simpa using hx)] at h
      obtain ⟨pre, post, rfl, hpre, hts⟩ := ih t h
      exact ⟨x :: pre, post, rfl, by
        intro u hu
        rcases List.mem_cons.mp hu with rfl | hu
        · exact hx
        · exact hpre u hu, hts⟩

theorem updateFirst_split (tid : String) (f : DownloadTask → DownloadTask) :
    ∀ (pre : List DownloadTask) (t : DownloadTask) (post : List DownloadTask),
      (∀ u ∈ pre, u.id ≠ tid) → t.id = tid →
      updateFirst tid f (pre ++ t :: post) = pre ++ f t :: post := by
  intro pre
  induction pre with
  | nil => intro t post _ ht; simp [updateFirst, ht]
  | cons x xs ih =>
    intro t post hpre ht
    have hx : x.id ≠ tid := hpre x (by simp)
    simp only [List.cons_append, updateFirst, if_neg hx, List.append_eq]
    rw [ih t post (fun u hu => hpre u (by simp [hu])) ht]

theorem removeFirst_split (tid : String) :
    ∀ (pre : List DownloadTask) (t : DownloadTask) (post : List DownloadTask),
      (∀ u ∈ pre, u.id ≠ tid) → t.id = tid →
      removeFirst tid (pre ++ t :: post) = pre ++ post := by
  intro pre
  induction pre with
  | nil => intro t post _ ht; simp [removeFirst, ht]
  | cons x xs ih =>
    intro t post hpre ht
    have hx : x.id ≠ tid := hpre x (by simp)
    simp only [List.cons_append, removeFirst, if_neg hx, List.append_eq]
    rw [ih t post (fun u hu => hpre u (by simp [hu])) ht]

/-! ## C2, C10: idempotent enqueue -/

/-- C2: calling `queueDownload` again while a task for the same
`(mangaId, chapterId)` pair is `PENDING`, `DOWNLOADING` or `PAUSED` returns
the existing task, leaves the whole state (queue, files, snapshots)
unchanged, and the queue still contains exactly one record for the pair. -/
theorem queueDownload_idempotent
    (env : DownloadEnv) (sched : Nat → List Event) (fuel : Nat)
    (manga : Manga) (chapter : MangaChapter) (st : EngineState) (t : DownloadTask)
    (hfind : st.queue.find?
      (fun u => u.mangaId == manga.id && u.chapterId == chapter.id) = some t)
    (hactive : t.status = DownloadStatus.PENDING ∨
      t.status = DownloadStatus.DOWNLOADING ∨ t.status = DownloadStatus.PAUSED)
    (hone : st.queue.countP
      (fun u => u.mangaId == manga.id && u.chapterId == chapter.id) = 1) :
    queueDownload env sched fuel manga chapter st = (st, t) ∧
    (queueDownload env sched fuel manga chapter st).1.queue.countP
      (fun u => u.mangaId == manga.id && u.chapterId == chapter.id) = 1 := by
  simp only [queueDownload, hfind]
  exact ⟨trivial, hone⟩

def wManga : Manga := { id := "m", source := "s" }
def wChapter : MangaChapter := { id := "c" }
def wTask : DownloadTask := mkTask ("T") ("m") ("c") ("s") DownloadStatus.PENDING
def wState : EngineState :=
  { queue := [wTask], isProcessing := false, fs := baseFs,
    snapshots := [], now := 1, tick := 0 }

/-- Witness for C2 at a concrete pending task. -/
theorem queueDownload_idempotent_witness :
    queueDownload trivEnv noEvents 0 wManga wChapter wState = (wState, wTask) ∧
    (queueDownload trivEnv noEvents 0 wManga wChapter wState).1.queue.countP
      (fun u => u.mangaId == wManga.id && u.chapterId == wChapter.id) = 1 :=
  queueDownload_idempotent trivEnv noEvents 0 wManga wChapter wState wTask
    (by decide) (by decide) (by decide)

/-- C10: `queueDownload` deduplicates on the pair alone, without looking at
the status: any existing task for the pair — also a terminal `COMPLETED` or
`FAILED` one — is returned as-is and no new task is created. -/
theorem queueDownload_dedup_ignores_status
    (env : DownloadEnv) (sched : Nat → List Event) (fuel : Nat)
    (manga : Manga) (chapter : MangaChapter) (st : EngineState) (t : DownloadTask)
    (hfind : st.queue.find?
      (fun u => u.mangaId == manga.id && u.chapterId == chapter.id) = some t)
    (hterminal : t.status = DownloadStatus.COMPLETED ∨
      t.status = DownloadStatus.FAILED) :
    queueDownload env sched fuel manga chapter st = (st, t) ∧
    (queueDownload env sched fuel manga chapter st).1.queue.length
      = st.queue.length := by
  simp only [queueDownload, hfind]
  exact ⟨trivial, trivial⟩

def wTaskDone : DownloadTask := mkTask ("T2") ("m2") ("c2") ("s") DownloadStatus.COMPLETED
def wStateDone : EngineState :=
  { queue := [wTaskDone], isProcessing := false, fs := baseFs,
    snapshots := [], now := 1, tick := 0 }
def wMangaDone : Manga := { id := "m2", source := "s" }
def wChapterDone : MangaChapter := { id := "c2" }

/-- Witness for C10 at a concrete `COMPLETED` task. -/
theorem queueDownload_dedup_ignores_status_witness :
    queueDownload trivEnv noEvents 0 wMangaDone wChapterDone wStateDone
      = (wStateDone, wTaskDone) ∧
    (queueDownload trivEnv noEvents 0 wMangaDone wChapterDone wStateDone).1.queue.length
      = wStateDone.queue.length :=
  queueDownload_dedup_ignores_status trivEnv noEvents 0 wMangaDone wChapterDone
    wStateDone wTaskDone (by decide) (by decide)

/-! ## C6: cancel cleans up; stale ids are no-ops -/

/-- C6: `cancelDownload` on a present task (of any status) removes exactly
that record, deletes the chapter directory and everything in it, and
persists one snapshot; directory deletion is idempotent (deleting an
absent directory is the identity); and `cancelDownload`, `pauseDownload`
and `resumeDownload` on an id that is not in the queue are no-ops. -/
theorem cancelDownload_cleanup_and_forgiving (st : EngineState) (tid : String) :
    (∀ t, st.queue.find? (fun u => u.id == tid) = some t →
      (st.queue.map (fun u => u.id)).Nodup →
      ((cancelDownload tid st).queue.length + 1 = st.queue.length ∧
       (∀ u ∈ (cancelDownload tid st).queue, u.id ≠ tid) ∧
       getChapterDirectory t.mangaId t.chapterId ∉ (cancelDownload tid st).fs.dirs ∧
       (∀ name, (getChapterDirectory t.mangaId t.chapterId, name) ∉
          (cancelDownload tid st).fs.files) ∧
       (cancelDownload tid st).snapshots
          = st.snapshots ++ [(cancelDownload tid st).queue])) ∧
    (st.queue.find? (fun u => u.id == tid) = none →
      cancelDownload tid st = st ∧ pauseDownload tid st = st ∧
      resumeDownload tid st = st) ∧
    (∀ fs dir, dir ∉ fs.dirs → (∀ name, (dir, name) ∉ fs.files) →
      FileSystem.deleteDir fs dir = fs) := by
  refine ⟨?_, ?_, ?_⟩
  · intro t hfind hnodup
    obtain ⟨pre, post, hq, hpre, ht⟩ := find?_id_split tid st.queue t hfind
    have hrem : removeFirst tid (pre ++ t :: post) = pre ++ post :=
      removeFirst_split tid pre t post hpre ht
    have hpost : ∀ u ∈ post, u.id ≠ tid := by
      rw [hq] at hnodup
      simp only [List.map_append, List.map_cons] at hnodup
      have h1 := hnodup.of_append_right
      have h2 : t.id ∉ post.map (fun u => u.id) := (List.nodup_cons.mp h1).1
      intro u hu heq
      apply h2
      rw [ht]
      exact List.mem_map.mpr ⟨u, hu, heq⟩
    simp only [cancelDownload, hfind]
    refine ⟨?_, ?_, ?_, ?_, ?_⟩
    · simp only [saveQueue, hq, hrem]
      simp [Nat.add_assoc]
    · intro u hu
      simp only [saveQueue] at hu
      rw [hq, hrem] at hu
      rcases List.mem_append.mp hu with h | h
      · exact hpre u h
      · exact hpost u h
    · simp [saveQueue, FileSystem.deleteDir]
    · intro name
      simp [saveQueue, FileSystem.deleteDir]
    · simp [saveQueue]
  · intro hfind
    refine ⟨?_, ?_, ?_⟩
    · simp only [cancelDownload, hfind]
    · simp only [pauseDownload, hfind]
    · simp only [resumeDownload, hfind]
  · intro fs dir hdir hfiles
    cases fs with
    | mk dirs files =>
      simp only [FileSystem.deleteDir, FileSystem.mk.injEq]
      constructor
      · rw [List.filter_eq_self]
        intro d hd
        simp only [decide_eq_true_eq]
        rintro rfl
        exact hdir hd
      · rw [List.filter_eq_self]
        intro p hp
        simp only [decide_eq_true_eq]
        intro h1
        exact hfiles p.2 (by rw [← h1]; exact hp)

def cTaskA : DownloadTask := mkTask ("A") ("ma") ("ca") ("s") DownloadStatus.DOWNLOADING
def cTaskB : DownloadTask := mkTask ("B") ("mb") ("cb") ("s") DownloadStatus.PENDING
def cFs : FileSystem :=
  { dirs := [DOWNLOAD_DIR, getChapterDirectory ("ma") ("ca")],
    files := [(getChapterDirectory ("ma") ("ca"), pageFileName 0)] }
def cState : EngineState :=
  { queue := [cTaskA, cTaskB], isProcessing := false, fs := cFs,
    snapshots := [], now := 5, tick := 0 }

/-- Witness for C6: cancelling the concrete `DOWNLOADING` task removes it
and its files; a stale id is a no-op for all three one-shot operations. -/
theorem cancelDownload_cleanup_and_forgiving_witness :
    ((cancelDownload ("A") cState).queue.length + 1 = cState.queue.length ∧
     getChapterDirectory ("ma") ("ca") ∉ (cancelDownload ("A") cState).fs.dirs ∧
     (getChapterDirectory ("ma") ("ca"), pageFileName 0) ∉
        (cancelDownload ("A") cState).fs.files) ∧
    (cancelDownload ("zz") cState = cState ∧ pauseDownload ("zz") cState = cState ∧
     resumeDownload ("zz") cState = cState) := by
  have hA := (cancelDownload_cleanup_and_forgiving cState ("A")).1 cTaskA
    (by decide) (by decide)
  have hB := (cancelDownload_cleanup_and_forgiving cState ("zz")).2.1 (by decide)
  exact ⟨⟨hA.1, hA.2.2.1, hA.2.2.2.1 (pageFileName 0)⟩, hB⟩

/-! ## C4: failures are caught at the task boundary and the queue drains -/

def c4Env (e : String) : DownloadEnv :=
  { nativeAvailable := true,
    pageCount := fun _ c => if c = ("c1") then Except.error e else Except.ok 2,
    fetchPage := fun _ _ => Except.ok () }

/-- The provider-unavailable environment: `isNativeModuleAvailable()` is
false, so every claim throws at line 227 before touching the network. -/
def c4EnvNative : DownloadEnv :=
  { nativeAvailable := false,
    pageCount := fun _ _ => Except.ok 2,
    fetchPage := fun _ _ => Except.ok () }

/-- An environment where the byte fetch of page 1 of chapter `c1` throws
(the rethrow of line 268); every other operation succeeds. -/
def c4EnvPage (e : String) : DownloadEnv :=
  { nativeAvailable := true,
    pageCount := fun _ _ => Except.ok 2,
    fetchPage := fun c i =>
      if c = ("c1") ∧ i = 1 then Except.error e else Except.ok () }

def c4State : EngineState :=
  { queue := [mkTask ("t1") ("m1") ("c1") ("s") DownloadStatus.PENDING,
              mkTask ("t2") ("m2") ("c2") ("s") DownloadStatus.PENDING],
    isProcessing := false, fs := baseFs, snapshots := [], now := 0, tick := 0 }

/-- C4: every failure mode of `downloadChapter` is absorbed by the
task-boundary catch of lines 203-209 and the engine drains the rest of the
queue.  (a) With the native module unavailable, each claimed task fails in
turn with the line-227 message and the drain still visits every task.
(b) Whatever error message `em` the provider raises while fetching the
first task's page list, that task ends `FAILED` with `error = em` and the
next `PENDING` task is claimed and fully processed.  (c) Whatever error
message `ep` the byte fetch of page 1 raises (the rethrow of line 268),
the first task ends `FAILED` with `error = ep` keeping its partial
bookkeeping (1 of 2 pages, progress 50), the `FAILED` state is in the
snapshot persisted at the catch (with the second task still `PENDING`
there), and the second task then completes. -/
theorem failure_caught_and_queue_drains (em ep : String) :
    ((processQueue c4EnvNative noEvents 3 c4State).queue.map
      (fun t => (t.id, t.status, t.error))
      = [(("t1"), DownloadStatus.FAILED,
            some ("Native module required for downloading")),
         (("t2"), DownloadStatus.FAILED,
            some ("Native module required for downloading"))]) ∧
    ((processQueue (c4Env em) noEvents 3 c4State).queue.map
      (fun t => (t.id, t.status, t.error, t.progress, t.downloadedPages, t.totalPages))
      = [(("t1"), DownloadStatus.FAILED, some em, 0, 0, 0),
         (("t2"), DownloadStatus.COMPLETED, none, 100, 2, 2)]) ∧
    ((processQueue (c4EnvPage ep) noEvents 3 c4State).queue.map
      (fun t => (t.id, t.status, t.error, t.progress, t.downloadedPages, t.totalPages))
      = [(("t1"), DownloadStatus.FAILED, some ep, 50, 1, 2),
         (("t2"), DownloadStatus.COMPLETED, none, 100, 2, 2)]) ∧
    (((processQueue (c4EnvPage ep) noEvents 3 c4State).snapshots.get? 3).map
      (fun q => q.map (fun t => (t.id, t.status, t.error)))
      = some [(("t1"), DownloadStatus.FAILED, some ep),
              (("t2"), DownloadStatus.PENDING, none)]) :=
  ⟨rfl, rfl, rfl, rfl⟩

/-! ## C8: happy path and `getDownloadedPages` -/

def hpState : EngineState :=
  { queue := [], isProcessing := false, fs := baseFs,
    snapshots := [], now := 0, tick := 0 }

/-- C8: enqueueing a chapter whose provider returns 3 pages with every
byte-fetch succeeding ends in `COMPLETED`/`progress 100`/`3 of 3` pages,
`getDownloadedPages` returns exactly the three zero-padded page paths in
order, and for any state whose chapter directory does not exist it returns
the empty list. -/
theorem happy_path_three_pages :
    (queueDownload (okEnv 3) noEvents 2 wManga wChapter hpState).1.queue.map
      (fun t => (t.status, t.progress, t.downloadedPages, t.totalPages))
      = [(DownloadStatus.COMPLETED, 100, 3, 3)] ∧
    getDownloadedPages (queueDownload (okEnv 3) noEvents 2 wManga wChapter hpState).1
      ("m") ("c")
      = [getChapterDirectory ("m") ("c") ++ pageFileName 0,
         getChapterDirectory ("m") ("c") ++ pageFileName 1,
         getChapterDirectory ("m") ("c") ++ pageFileName 2] ∧
    pageFileName 0 = "page_0000.jpg" ∧ pageFileName 1 = "page_0001.jpg" ∧
    pageFileName 2 = "page_0002.jpg" ∧
    (∀ (m c : String) (st : EngineState),
      getChapterDirectory m c ∉ st.fs.dirs → getDownloadedPages st m c = []) := by
  refine ⟨by decide, by decide, by decide, by decide, by decide, ?_⟩
  intro m c st h
  simp [getDownloadedPages, h]

/-- Witness for C8's universally-quantified conjunct: a state without the
chapter directory yields no downloaded pages. -/
theorem happy_path_three_pages_witness :
    getDownloadedPages hpState ("x") ("y") = [] :=
  happy_path_three_pages.2.2.2.2.2 ("x") ("y") hpState (by decide)

/-! ## C1: progress 100 versus COMPLETED -/

def c1State : EngineState :=
  { queue := [mkTask ("P") ("m1") ("c1") ("s") DownloadStatus.PENDING],
    isProcessing := false, fs := baseFs, snapshots := [], now := 0, tick := 0 }

/-- C1 counterexample: running the engine on a one-page chapter produces a
persisted/notified snapshot (the third one) in which the task has
`progress = 100` while its status is still `DOWNLOADING` — the snapshot
written right after the final page download (source lines 262-265), before
the `COMPLETED` mark (line 272).  So `progress == 100` does not imply
`status == COMPLETED` at every observed snapshot. -/
theorem progress_hundred_without_completed_cex :
    ((processQueue (okEnv 1) noEvents 2 c1State).snapshots.get? 2).map
      (fun q => q.map (fun t => (t.progress, t.status)))
      = some [(100, DownloadStatus.DOWNLOADING)] := by decide

/-! ## C7: downloadedPages monotonicity -/

def c7State : EngineState :=
  { queue := [mkTask ("T") ("m") ("c") ("s") DownloadStatus.PENDING],
    isProcessing := false, fs := baseFs, snapshots := [], now := 1, tick := 0 }

def c7Final : EngineState :=
  processQueue (okEnv 3) noEvents 2
    (resumeDownload ("T") (processQueue (okEnv 3) (pauseAt 2 ("T")) 2 c7State))

/-- C7 counterexample: pause a 3-page download after 2 pages, resume it,
and let it finish.  Snapshots 7 and 8 of the observed history are
successive `DOWNLOADING` snapshots of the same task in which
`downloadedPages` drops from 2 to 1: the engine restarts a resumed task
from page 0 (the claim mark at line 221 keeps the stale count 2, the first
re-downloaded page overwrites it with 1).  So `downloadedPages` is not
monotonically non-decreasing across successive persisted snapshots while
the task is `DOWNLOADING`. -/
theorem downloadedPages_decrease_cex :
    ((c7Final.snapshots.get? 7).map
      (fun q => q.map (fun t => (t.id, t.status, t.downloadedPages)))
      = some [(("T"), DownloadStatus.DOWNLOADING, 2)]) ∧
    ((c7Final.snapshots.get? 8).map
      (fun q => q.map (fun t => (t.id, t.status, t.downloadedPages)))
      = some [(("T"), DownloadStatus.DOWNLOADING, 1)]) := by decide

/-! ## Shared membership lemmas for queue mutation -/

theorem mem_removeFirst (tid : String) :
    ∀ (q : List DownloadTask) (u : DownloadTask), u ∈ removeFirst tid q → u ∈ q := by
  intro q
  induction q with
  | nil => intro u hu; simp [removeFirst] at hu
  | cons x xs ih =>
    intro u hu
    by_cases hx : x.id = tid
    · simp only [removeFirst, if_pos hx] at hu
      exact List.mem_cons_of_mem _ hu
    · simp only [removeFirst, if_neg hx] at hu
      rcases List.mem_cons.mp hu with rfl | hu
      · exact List.mem_cons_self _ _
      · exact List.mem_cons_of_mem _ (ih u hu)

theorem mem_updateFirst (tid : String) (f : DownloadTask → DownloadTask) :
    ∀ (q : List DownloadTask) (u : DownloadTask), u ∈ updateFirst tid f q →
      u ∈ q ∨ ∃ t, q.find? (fun v => v.id == tid) = some t ∧ u = f t := by
  intro q
  induction q with
  | nil => intro u hu; simp [updateFirst] at hu
  | cons x xs ih =>
    intro u hu
    by_cases hx : x.id = tid
    · simp only [updateFirst, if_pos hx] at hu
      rcases List.mem_cons.mp hu with rfl | hu
      · exact Or.inr ⟨x, by rw [List.find?_cons_of_pos _ (by simpa using hx)], rfl⟩
      · exact Or.inl (List.mem_cons_of_mem _ hu)
    · simp only [updateFirst, if_neg hx] at hu
      rcases List.mem_cons.mp hu with rfl | hu
      · exact Or.inl (List.mem_cons_self _ _)
      · rcases ih u hu with h | ⟨t, hf, rfl⟩
        · exact Or.inl (List.mem_cons_of_mem _ h)
        · exact Or.inr ⟨t, by rw [List.find?_cons_of_neg _ (by simpa using hx)]; exact hf, rfl⟩

/-! ## C1 (amended): COMPLETED implies progress 100, at every snapshot -/

/-- The surviving direction of the progress/status correlation. -/
@[reducible] def completedFull (t : DownloadTask) : Prop :=
  t.status = DownloadStatus.COMPLETED → t.progress = 100

@[reducible] def allCompletedFull (q : List DownloadTask) : Prop :=
  ∀ t ∈ q, completedFull t

/-- The invariant: the current queue and every observed snapshot only hold
`COMPLETED` tasks whose progress is 100. -/
@[reducible] def progressInv (st : EngineState) : Prop :=
  allCompletedFull st.queue ∧ ∀ q ∈ st.snapshots, allCompletedFull q

theorem allCompletedFull_updateFirst {tid : String} {f : DownloadTask → DownloadTask}
    {q : List DownloadTask} (h : allCompletedFull q)
    (hf : ∀ t, q.find? (fun v => v.id == tid) = some t → completedFull (f t)) :
    allCompletedFull (updateFirst tid f q) := by
  intro u hu
  rcases mem_updateFirst tid f q u hu with h1 | ⟨t, hfind, rfl⟩
  · exact h u h1
  · exact hf t hfind

theorem allCompletedFull_removeFirst {tid : String} {q : List DownloadTask}
    (h : allCompletedFull q) : allCompletedFull (removeFirst tid q) :=
  fun u hu => h u (mem_removeFirst tid q u hu)

theorem progressInv_saveQueue {st : EngineState} (h : progressInv st) :
    progressInv (saveQueue st) := by
  refine ⟨h.1, ?_⟩
  intro q hq
  simp only [saveQueue] at hq
  rcases List.mem_append.mp hq with hq | hq
  · exact h.2 q hq
  · simp only [List.mem_singleton] at hq
    subst hq
    exact h.1

theorem progressInv_pauseDownload (tid : String) (st : EngineState)
    (h : progressInv st) : progressInv (pauseDownload tid st) := by
  unfold pauseDownload
  split
  · exact h
  · split
    · exact progressInv_saveQueue
        ⟨allCompletedFull_updateFirst h.1 (fun t' _ hc => absurd
          (show DownloadStatus.PAUSED = DownloadStatus.COMPLETED from hc) (by decide)),
         h.2⟩
    · exact h

theorem progressInv_resumeDownload (tid : String) (st : EngineState)
    (h : progressInv st) : progressInv (resumeDownload tid st) := by
  unfold resumeDownload
  split
  · exact h
  · split
    · exact progressInv_saveQueue
        ⟨allCompletedFull_updateFirst h.1 (fun t' _ hc => absurd
          (show DownloadStatus.PENDING = DownloadStatus.COMPLETED from hc) (by decide)),
         h.2⟩
    · exact h

theorem progressInv_cancelDownload (tid : String) (st : EngineState)
    (h : progressInv st) : progressInv (cancelDownload tid st) := by
  unfold cancelDownload
  split
  · exact h
  · exact progressInv_saveQueue ⟨allCompletedFull_removeFirst h.1, h.2⟩

theorem progressInv_applyEvent (st : EngineState) (e : Event)
    (h : progressInv st) : progressInv (applyEvent st e) := by
  cases e with
  | pause tid => exact progressInv_pauseDownload tid st h
  | resume tid => exact progressInv_resumeDownload tid st h
  | cancel tid => exact progressInv_cancelDownload tid st h

theorem progressInv_applyEvents :
    ∀ (evs : List Event) (st : EngineState), progressInv st →
      progressInv (applyEvents st evs) := by
  intro evs
  induction evs with
  | nil => intro st h; exact h
  | cons e es ih => intro st h; exact ih _ (progressInv_applyEvent _ _ h)

theorem progressInv_checkpoint (sched : Nat → List Event) (st : EngineState)
    (h : progressInv st) : progressInv (checkpoint sched st) :=
  progressInv_applyEvents _ _ h

theorem progressInv_pageLoop (env : DownloadEnv) (sched : Nat → List Event)
    (tid chId dir : String) (n : Nat) :
    ∀ (k i : Nat) (st : EngineState), progressInv st →
      progressInv (pageLoop env sched tid chId dir n k i st).1 := by
  intro k
  induction k with
  | zero =>
    intro i st h
    simp only [pageLoop]
    apply progressInv_saveQueue
    refine ⟨?_, h.2⟩
    apply allCompletedFull_updateFirst h.1
    intro t _ _
    rfl
  | succ k ih =>
    intro i st h
    simp only [pageLoop]
    have h1 : progressInv (checkpoint sched st) := progressInv_checkpoint sched st h
    split
    · exact h1
    · rename_i cur hfind
      split
      · rename_i hdl
        split
        · exact h1
        · apply ih
          apply progressInv_saveQueue
          refine ⟨?_, h1.2⟩
          apply allCompletedFull_updateFirst h1.1
          intro t' hfind' hc
          have ht' : t' = cur := Option.some.inj (hfind'.symm.trans hfind)
          subst ht'
          have hc' : t'.status = DownloadStatus.COMPLETED := hc
          rw [hdl] at hc'
          exact absurd hc' (by decide)
      · exact h1

theorem progressInv_downloadChapter (env : DownloadEnv) (sched : Nat → List Event)
    (task : DownloadTask) (st : EngineState) (h : progressInv st) :
    progressInv (downloadChapter env sched task st).1 := by
  simp only [downloadChapter]
  have h1 : progressInv (saveQueue
      { st with
        queue := updateFirst task.id
          (fun u => { u with status := DownloadStatus.DOWNLOADING,
                             updatedAt := st.now }) st.queue,
        now := st.now + 1 }) :=
    progressInv_saveQueue
      ⟨allCompletedFull_updateFirst h.1 (fun t _ hc => absurd
        (show DownloadStatus.DOWNLOADING = DownloadStatus.COMPLETED from hc) (by decide)),
       h.2⟩
  split
  · split
    · exact h1
    · apply progressInv_pageLoop
      refine ⟨?_, ?_⟩
      · apply allCompletedFull_updateFirst h1.1
        intro t hfind hc
        exact h1.1 t (List.mem_of_find?_eq_some hfind) hc
      · intro q hq
        rcases List.mem_append.mp hq with hq | hq
        · exact h1.2 q hq
        · simp only [List.mem_singleton] at hq
          subst hq
          apply allCompletedFull_updateFirst h1.1
          intro t hfind hc
          exact h1.1 t (List.mem_of_find?_eq_some hfind) hc
  · exact h1

theorem progressInv_processQueue (env : DownloadEnv) (sched : Nat → List Event) :
    ∀ (fuel : Nat) (st : EngineState), progressInv st →
      progressInv (processQueue env sched fuel st) := by
  intro fuel
  induction fuel with
  | zero => intro st h; exact h
  | succ fuel ih =>
    intro st h
    simp only [processQueue]
    split
    · exact h
    · split
      · exact h
      · rename_i task hfind
        have h1 : progressInv
            (downloadChapter env sched task { st with isProcessing := true }).1 :=
          progressInv_downloadChapter _ _ _ _ h
        apply ih
        split
        · exact h1
        · refine ⟨?_, ?_⟩
          · apply allCompletedFull_updateFirst h1.1
            intro t _ hc
            exact absurd
              (show DownloadStatus.FAILED = DownloadStatus.COMPLETED from hc) (by decide)
          · intro q hq
            rcases List.mem_append.mp hq with hq | hq
            · exact h1.2 q hq
            · simp only [List.mem_singleton] at hq
              subst hq
              apply allCompletedFull_updateFirst h1.1
              intro t _ hc
              exact absurd
                (show DownloadStatus.FAILED = DownloadStatus.COMPLETED from hc) (by decide)

theorem progressInv_queueDownload (env : DownloadEnv) (sched : Nat → List Event)
    (fuel : Nat) (manga : Manga) (chapter : MangaChapter) (st : EngineState)
    (h : progressInv st) :
    progressInv (queueDownload env sched fuel manga chapter st).1 := by
  simp only [queueDownload]
  split
  · exact h
  · apply progressInv_processQueue
    apply progressInv_saveQueue
    refine ⟨?_, h.2⟩
    intro u hu
    rcases List.mem_append.mp hu with hu | hu
    · exact h.1 u hu
    · simp only [List.mem_singleton] at hu
      subst hu
      intro hc
      exact absurd
        (show DownloadStatus.PENDING = DownloadStatus.COMPLETED from hc) (by decide)

/-- C1 amended: at every observed snapshot, `status == COMPLETED` implies
`progress == 100` (`progressInv`), and this invariant is preserved by every
entry point of the service — engine drain, enqueue, pause, resume and
cancel — under any external-event schedule.  The converse implication is
refuted by `progress_hundred_without_completed_cex`. -/
theorem completed_implies_progress_hundred
    (env : DownloadEnv) (sched : Nat → List Event) (fuel : Nat)
    (manga : Manga) (chapter : MangaChapter) (tid : String) (st : EngineState)
    (h : progressInv st) :
    progressInv (processQueue env sched fuel st) ∧
    progressInv (queueDownload env sched fuel manga chapter st).1 ∧
    progressInv (pauseDownload tid st) ∧
    progressInv (resumeDownload tid st) ∧
    progressInv (cancelDownload tid st) :=
  ⟨progressInv_processQueue env sched fuel st h,
   progressInv_queueDownload env sched fuel manga chapter st h,
   progressInv_pauseDownload tid st h,
   progressInv_resumeDownload tid st h,
   progressInv_cancelDownload tid st h⟩

def c1aTask : DownloadTask :=
  (processQueue (okEnv 1) noEvents 2 c1State).queue.getD 0
    (mkTask ("z") ("z") ("z") ("z") DownloadStatus.PENDING)

/-- Witness for the amended C1 at the concrete one-page run: the final task
is `COMPLETED` and the invariant forces its progress to be 100. -/
theorem completed_implies_progress_hundred_witness :
    c1aTask.status = DownloadStatus.COMPLETED ∧ c1aTask.progress = 100 := by
  have h := (completed_implies_progress_hundred (okEnv 1) noEvents 2
    wManga wChapter ("T") c1State ⟨by decide, by decide⟩).1
  exact ⟨by decide, h.1 c1aTask (by decide) (by decide)⟩

/-! ## C5: single-active-task guard, FIFO claim, at most one DOWNLOADING -/

/-- Every `DOWNLOADING` task in the queue is the one the engine claimed. -/
@[reducible] def OnlyDl (tid : String) (q : List DownloadTask) : Prop :=
  ∀ u ∈ q, u.status = DownloadStatus.DOWNLOADING → u.id = tid

/-- No task is `DOWNLOADING` (the engine is between tasks). -/
@[reducible] def NoDl (q : List DownloadTask) : Prop :=
  ∀ u ∈ q, u.status ≠ DownloadStatus.DOWNLOADING

/-- Task ids are pairwise distinct. -/
@[reducible] def IdsNodup (q : List DownloadTask) : Prop :=
  (q.map (fun u => u.id)).Nodup

/-- The number of `DOWNLOADING` tasks in a queue. -/
def countDl (q : List DownloadTask) : Nat :=
  q.countP (fun t => t.status == DownloadStatus.DOWNLOADING)

/-- Every observed snapshot shows at most one `DOWNLOADING` task. -/
@[reducible] def SnapBound (st : EngineState) : Prop :=
  ∀ q ∈ st.snapshots, countDl q ≤ 1

theorem find?_first {α : Type} (p : α → Bool) :
    ∀ (pre : List α) (t : α) (post : List α),
      (∀ u ∈ pre, p u = false) → p t = true →
      (pre ++ t :: post).find? p = some t := by
  intro pre
  induction pre with
  | nil => intro t post _ ht; simp [List.find?, ht]
  | cons x xs ih =>
    intro t post hpre ht
    rw [List.cons_append, List.find?_cons_of_neg _ (by simp [hpre x (by simp)])]
    exact ih t post (fun u hu => hpre u (by simp [hu])) ht

theorem find?_eq_some_of_mem_id (tid : String) :
    ∀ (q : List DownloadTask) (u : DownloadTask), IdsNodup q → u ∈ q → u.id = tid →
      q.find? (fun v => v.id == tid) = some u := by
  intro q
  induction q with
  | nil => intro u _ hu; simp at hu
  | cons x xs ih =>
    intro u hnd hu hid
    by_cases hx : x.id = tid
    · rw [List.find?_cons_of_pos _ (by simpa using hx)]
      rcases List.mem_cons.mp hu with rfl | hu
      · rfl
      · exfalso
        have hmem : x.id ∈ xs.map (fun v => v.id) := by
          rw [hx]
          exact List.mem_map.mpr ⟨u, hu, hid⟩
        exact (List.nodup_cons.mp hnd).1 hmem
    · rw [List.find?_cons_of_neg _ (by simpa using hx)]
      rcases List.mem_cons.mp hu with rfl | hu
      · exact absurd hid hx
      · exact ih u (List.nodup_cons.mp hnd).2 hu hid

theorem updateFirst_of_absent (tid : String) (f : DownloadTask → DownloadTask) :
    ∀ (q : List DownloadTask), (∀ u ∈ q, u.id ≠ tid) → updateFirst tid f q = q := by
  intro q
  induction q with
  | nil => intro _; rfl
  | cons x xs ih =>
    intro h
    simp only [updateFirst, if_neg (h x (by simp))]
    rw [ih (fun u hu => h u (by simp [hu]))]

theorem ids_updateFirst (tid : String) (f : DownloadTask → DownloadTask)
    (hid : ∀ u, (f u).id = u.id) :
    ∀ (q : List DownloadTask),
      (updateFirst tid f q).map (fun u => u.id) = q.map (fun u => u.id) := by
  intro q
  induction q with
  | nil => rfl
  | cons x xs ih =>
    by_cases hx : x.id = tid
    · simp [updateFirst, hx, hid]
    · simp [updateFirst, hx, ih]

theorem removeFirst_sublist (tid : String) :
    ∀ (q : List DownloadTask), (removeFirst tid q).Sublist q := by
  intro q
  induction q with
  | nil => simp [removeFirst]
  | cons x xs ih =>
    by_cases hx : x.id = tid
    · simp only [removeFirst, if_pos hx]
      exact List.sublist_cons_self x xs
    · simp only [removeFirst, if_neg hx]
      exact List.Sublist.cons₂ x ih

theorem idsNodup_updateFirst {tid : String} {f : DownloadTask → DownloadTask}
    {q : List DownloadTask} (hid : ∀ u, (f u).id = u.id) (h : IdsNodup q) :
    IdsNodup (updateFirst tid f q) := by
  unfold IdsNodup
  rw [ids_updateFirst tid f hid q]
  exact h

theorem idsNodup_removeFirst {tid : String} {q : List DownloadTask}
    (h : IdsNodup q) : IdsNodup (removeFirst tid q) := by
  unfold IdsNodup at h ⊢
  exact ((removeFirst_sublist tid q).map (fun u => u.id)).nodup h

theorem countDl_le_one (tid : String) :
    ∀ (q : List DownloadTask), OnlyDl tid q → IdsNodup q → countDl q ≤ 1 := by
  intro q
  induction q with
  | nil => intro _ _; simp [countDl]
  | cons x xs ih =>
    intro ho hnd
    by_cases hx : x.status = DownloadStatus.DOWNLOADING
    · have hxid : x.id = tid := ho x (by simp) hx
      have hxs : countDl xs = 0 := by
        rw [countDl, List.countP_eq_zero]
        intro u hu
        simp only [beq_iff_eq]
        intro hdl
        have huid : u.id = tid := ho u (by simp [hu]) hdl
        refine (List.nodup_cons.mp hnd).1 ?_
        show x.id ∈ List.map (fun u => u.id) xs
        rw [hxid]
        exact List.mem_map.mpr ⟨u, hu, huid⟩
      simp only [countDl, List.countP_cons, beq_iff_eq, if_pos hx]
      rw [countDl] at hxs
      simp [hxs]
    · simp only [countDl, List.countP_cons]
      have : ¬((x.status == DownloadStatus.DOWNLOADING) = true) := by simpa using hx
      simp only [this, if_false]
      simpa [countDl] using
        ih (fun u hu => ho u (by simp [hu])) (List.nodup_cons.mp hnd).2

theorem countDl_eq_zero {q : List DownloadTask} (h : NoDl q) : countDl q = 0 := by
  rw [countDl, List.countP_eq_zero]
  intro u hu
  simpa using h u hu

theorem noDl_of_not_dl_found (tid : String) (q : List DownloadTask)
    (ho : OnlyDl tid q) (hnd : IdsNodup q)
    (hcase : q.find? (fun v => v.id == tid) = none ∨
      ∃ cur, q.find? (fun v => v.id == tid) = some cur ∧
        cur.status ≠ DownloadStatus.DOWNLOADING) :
    NoDl q := by
  intro u hu hdl
  have huid : u.id = tid := ho u hu hdl
  have hfind := find?_eq_some_of_mem_id tid q u hnd hu huid
  rcases hcase with hnone | ⟨cur, hsome, hcur⟩
  · rw [hfind] at hnone; exact Option.noConfusion hnone
  · rw [hfind] at hsome
    exact hcur (Option.some.inj hsome ▸ hdl)

theorem noDl_updateFirst_fix {tid : String} {f : DownloadTask → DownloadTask}
    {q : List DownloadTask} (ho : OnlyDl tid q) (hnd : IdsNodup q)
    (hf : ∀ u, (f u).status ≠ DownloadStatus.DOWNLOADING) :
    NoDl (updateFirst tid f q) := by
  cases hfind : q.find? (fun v => v.id == tid) with
  | none =>
    have habs : ∀ u ∈ q, u.id ≠ tid := by
      intro u hu heq
      have := List.find?_eq_none.mp hfind u hu
      simp [heq] at this
    rw [updateFirst_of_absent tid f q habs]
    intro u hu hdl
    exact habs u hu (ho u hu hdl)
  | some t =>
    obtain ⟨pre, post, hq, hpre, ht⟩ := find?_id_split tid q t hfind
    rw [hq, updateFirst_split tid f pre t post hpre ht]
    subst hq
    intro u hu hdl
    rcases List.mem_append.mp hu with hpre' | hu
    · exact hpre u hpre' (ho u (List.mem_append.mpr (Or.inl hpre')) hdl)
    · rcases List.mem_cons.mp hu with rfl | hpost
      · exact hf _ hdl
      · have huid : u.id = tid :=
          ho u (List.mem_append.mpr (Or.inr (List.mem_cons.mpr (Or.inr hpost)))) hdl
        have hnd' : ((t :: post).map (fun v => v.id)).Nodup := by
          have h0 : ((pre ++ t :: post).map (fun v => v.id)).Nodup := hnd
          rw [List.map_append] at h0
          exact h0.of_append_right
        rw [List.map_cons] at hnd'
        refine absurd ?_ (List.nodup_cons.mp hnd').1
        rw [ht]
        exact List.mem_map.mpr ⟨u, hpost, huid⟩

/-- The engine-run invariant: only the claimed task may be `DOWNLOADING`,
ids stay distinct, and every snapshot shows at most one `DOWNLOADING`. -/
def RunInv (tid : String) (st : EngineState) : Prop :=
  OnlyDl tid st.queue ∧ IdsNodup st.queue ∧ SnapBound st

theorem onlyDl_updateFirst {tid tid' : String} {f : DownloadTask → DownloadTask}
    {q : List DownloadTask} (ho : OnlyDl tid q)
    (hf : ∀ t, q.find? (fun v => v.id == tid') = some t →
      (f t).status = DownloadStatus.DOWNLOADING → (f t).id = tid) :
    OnlyDl tid (updateFirst tid' f q) := by
  intro u hu hdl
  rcases mem_updateFirst tid' f q u hu with h | ⟨t, hfind, rfl⟩
  · exact ho u h hdl
  · exact hf t hfind hdl

theorem onlyDl_removeFirst {tid tid' : String} {q : List DownloadTask}
    (ho : OnlyDl tid q) : OnlyDl tid (removeFirst tid' q) :=
  fun u hu hdl => ho u (mem_removeFirst tid' q u hu) hdl

theorem runInv_pauseDownload (tid tid' : String) (st : EngineState)
    (h : RunInv tid st) : RunInv tid (pauseDownload tid' st) := by
  unfold pauseDownload
  split
  · exact h
  · split
    · have hq : OnlyDl tid (updateFirst tid'
          (fun u => { u with status := DownloadStatus.PAUSED,
                             updatedAt := st.now }) st.queue) :=
        onlyDl_updateFirst h.1 (fun t _ hdl => absurd
          (show DownloadStatus.PAUSED = DownloadStatus.DOWNLOADING from hdl) (by decide))
      have hn : IdsNodup (updateFirst tid'
          (fun u => { u with status := DownloadStatus.PAUSED,
                             updatedAt := st.now }) st.queue) :=
        idsNodup_updateFirst (fun u => rfl) h.2.1
      refine ⟨hq, hn, ?_⟩
      intro q hqm
      rcases List.mem_append.mp hqm with hqm | hqm
      · exact h.2.2 q hqm
      · simp only [List.mem_singleton] at hqm
        subst hqm
        exact countDl_le_one tid _ hq hn
    · exact h

theorem runInv_resumeDownload (tid tid' : String) (st : EngineState)
    (h : RunInv tid st) : RunInv tid (resumeDownload tid' st) := by
  unfold resumeDownload
  split
  · exact h
  · split
    · have hq : OnlyDl tid (updateFirst tid'
          (fun u => { u with status := DownloadStatus.PENDING,
                             updatedAt := st.now }) st.queue) :=
        onlyDl_updateFirst h.1 (fun t _ hdl => absurd
          (show DownloadStatus.PENDING = DownloadStatus.DOWNLOADING from hdl) (by decide))
      have hn : IdsNodup (updateFirst tid'
          (fun u => { u with status := DownloadStatus.PENDING,
                             updatedAt := st.now }) st.queue) :=
        idsNodup_updateFirst (fun u => rfl) h.2.1
      refine ⟨hq, hn, ?_⟩
      intro q hqm
      rcases List.mem_append.mp hqm with hqm | hqm
      · exact h.2.2 q hqm
      · simp only [List.mem_singleton] at hqm
        subst hqm
        exact countDl_le_one tid _ hq hn
    · exact h

theorem runInv_cancelDownload (tid tid' : String) (st : EngineState)
    (h : RunInv tid st) : RunInv tid (cancelDownload tid' st) := by
  unfold cancelDownload
  split
  · exact h
  · have hq : OnlyDl tid (removeFirst tid' st.queue) := onlyDl_removeFirst h.1
    have hn : IdsNodup (removeFirst tid' st.queue) := idsNodup_removeFirst h.2.1
    refine ⟨hq, hn, ?_⟩
    intro q hqm
    rcases List.mem_append.mp hqm with hqm | hqm
    · exact h.2.2 q hqm
    · simp only [List.mem_singleton] at hqm
      subst hqm
      exact countDl_le_one tid _ hq hn

theorem runInv_applyEvent (tid : String) (st : EngineState) (e : Event)
    (h : RunInv tid st) : RunInv tid (applyEvent st e) := by
  cases e with
  | pause tid' => exact runInv_pauseDownload tid tid' st h
  | resume tid' => exact runInv_resumeDownload tid tid' st h
  | cancel tid' => exact runInv_cancelDownload tid tid' st h

theorem runInv_applyEvents (tid : String) :
    ∀ (evs : List Event) (st : EngineState), RunInv tid st →
      RunInv tid (applyEvents st evs) := by
  intro evs
  induction evs with
  | nil => intro st h; exact h
  | cons e es ih => intro st h; exact ih _ (runInv_applyEvent tid _ e h)

theorem runInv_checkpoint (tid : String) (sched : Nat → List Event)
    (st : EngineState) (h : RunInv tid st) : RunInv tid (checkpoint sched st) :=
  runInv_applyEvents tid _ _ h

theorem runInv_pageLoop (env : DownloadEnv) (sched : Nat → List Event)
    (tid chId dir : String) (n : Nat) :
    ∀ (k i : Nat) (st : EngineState), RunInv tid st →
      RunInv tid (pageLoop env sched tid chId dir n k i st).1 ∧
      ((pageLoop env sched tid chId dir n k i st).2 = Except.ok () →
        NoDl (pageLoop env sched tid chId dir n k i st).1.queue) := by
  intro k
  induction k with
  | zero =>
    intro i st h
    simp only [pageLoop]
    have hno : NoDl (updateFirst tid
        (fun u => { u with status := DownloadStatus.COMPLETED,
                           progress := 100, updatedAt := st.now }) st.queue) :=
      noDl_updateFirst_fix h.1 h.2.1 (fun u hdl => absurd
        (show DownloadStatus.COMPLETED = DownloadStatus.DOWNLOADING from hdl) (by decide))
    have hq : OnlyDl tid (updateFirst tid
        (fun u => { u with status := DownloadStatus.COMPLETED,
                           progress := 100, updatedAt := st.now }) st.queue) :=
      fun u hu hdl => absurd hdl (hno u hu)
    have hn : IdsNodup (updateFirst tid
        (fun u => { u with status := DownloadStatus.COMPLETED,
                           progress := 100, updatedAt := st.now }) st.queue) :=
      idsNodup_updateFirst (fun u => rfl) h.2.1
    refine ⟨⟨hq, hn, ?_⟩, fun _ => hno⟩
    intro q hqm
    rcases List.mem_append.mp hqm with hqm | hqm
    · exact h.2.2 q hqm
    · simp only [List.mem_singleton] at hqm
      subst hqm
      exact countDl_le_one tid _ hq hn
  | succ k ih =>
    intro i st h
    simp only [pageLoop]
    have h1 : RunInv tid (checkpoint sched st) := runInv_checkpoint tid sched st h
    split
    · rename_i hfind
      exact ⟨h1, fun _ =>
        noDl_of_not_dl_found tid _ h1.1 h1.2.1 (Or.inl hfind)⟩
    · rename_i cur hfind
      split
      · rename_i hdl
        split
        · rename_i e hfp
          exact ⟨h1, fun hok => absurd hok (by simp)⟩
        · rename_i u hfp
          apply ih
          have hq : OnlyDl tid (updateFirst tid
              (fun v => { v with downloadedPages := i + 1,
                                 progress := jsRound (100 * (i + 1)) n,
                                 updatedAt := (checkpoint sched st).now })
              (checkpoint sched st).queue) := by
            apply onlyDl_updateFirst h1.1
            intro t hfind' hdl'
            exact h1.1 t (List.mem_of_find?_eq_some hfind')
              (show t.status = DownloadStatus.DOWNLOADING from hdl')
          have hn : IdsNodup (updateFirst tid
              (fun v => { v with downloadedPages := i + 1,
                                 progress := jsRound (100 * (i + 1)) n,
                                 updatedAt := (checkpoint sched st).now })
              (checkpoint sched st).queue) :=
            idsNodup_updateFirst (fun u => rfl) h1.2.1
          refine ⟨hq, hn, ?_⟩
          intro q hqm
          rcases List.mem_append.mp hqm with hqm | hqm
          · exact h1.2.2 q hqm
          · simp only [List.mem_singleton] at hqm
            subst hqm
            exact countDl_le_one tid _ hq hn
      · rename_i hdl
        exact ⟨h1, fun _ =>
          noDl_of_not_dl_found tid _ h1.1 h1.2.1 (Or.inr ⟨cur, hfind, hdl⟩)⟩

theorem runInv_downloadChapter (env : DownloadEnv) (sched : Nat → List Event)
    (task : DownloadTask) (st : EngineState)
    (h1 : NoDl st.queue) (h2 : IdsNodup st.queue) (h3 : SnapBound st) :
    RunInv task.id (downloadChapter env sched task st).1 ∧
    ((downloadChapter env sched task st).2 = Except.ok () →
      NoDl (downloadChapter env sched task st).1.queue) := by
  simp only [downloadChapter]
  have ho0 : OnlyDl task.id st.queue := fun u hu hdl => absurd hdl (h1 u hu)
  have hqM : OnlyDl task.id (updateFirst task.id
      (fun u => { u with status := DownloadStatus.DOWNLOADING,
                         updatedAt := st.now }) st.queue) := by
    apply onlyDl_updateFirst ho0
    intro t hfind _
    have := List.find?_some hfind
    simpa using this
  have hnM : IdsNodup (updateFirst task.id
      (fun u => { u with status := DownloadStatus.DOWNLOADING,
                         updatedAt := st.now }) st.queue) :=
    idsNodup_updateFirst (fun u => rfl) h2
  have hM : RunInv task.id (saveQueue
      { st with
        queue := updateFirst task.id
          (fun u => { u with status := DownloadStatus.DOWNLOADING,
                             updatedAt := st.now }) st.queue,
        now := st.now + 1 }) := by
    refine ⟨hqM, hnM, ?_⟩
    intro q hqm
    rcases List.mem_append.mp hqm with hqm | hqm
    · exact h3 q hqm
    · simp only [List.mem_singleton] at hqm
      subst hqm
      exact countDl_le_one task.id _ hqM hnM
  split
  · split
    · rename_i e hpc
      exact ⟨hM, fun hok => absurd hok (by simp)⟩
    · rename_i n hpc
      apply runInv_pageLoop
      have hqT : OnlyDl task.id (updateFirst task.id
          (fun u => { u with totalPages := n })
          (updateFirst task.id
            (fun u => { u with status := DownloadStatus.DOWNLOADING,
                               updatedAt := st.now }) st.queue)) := by
        apply onlyDl_updateFirst hqM
        intro t hfind' hdl'
        exact hqM t (List.mem_of_find?_eq_some hfind')
          (show t.status = DownloadStatus.DOWNLOADING from hdl')
      have hnT : IdsNodup (updateFirst task.id
          (fun u => { u with totalPages := n })
          (updateFirst task.id
            (fun u => { u with status := DownloadStatus.DOWNLOADING,
                               updatedAt := st.now }) st.queue)) :=
        idsNodup_updateFirst (fun u => rfl) hnM
      refine ⟨hqT, hnT, ?_⟩
      intro q hqm
      rcases List.mem_append.mp hqm with hqm | hqm
      · exact hM.2.2 q hqm
      · simp only [List.mem_singleton] at hqm
        subst hqm
        exact countDl_le_one task.id _ hqT hnT
  · exact ⟨hM, fun hok => absurd hok (by simp)⟩

theorem runInv_processQueue (env : DownloadEnv) (sched : Nat → List Event) :
    ∀ (fuel : Nat) (st : EngineState),
      NoDl st.queue → IdsNodup st.queue → SnapBound st →
      NoDl (processQueue env sched fuel st).queue ∧
      IdsNodup (processQueue env sched fuel st).queue ∧
      SnapBound (processQueue env sched fuel st) := by
  intro fuel
  induction fuel with
  | zero => intro st h1 h2 h3; exact ⟨h1, h2, h3⟩
  | succ fuel ih =>
    intro st h1 h2 h3
    simp only [processQueue]
    split
    · exact ⟨h1, h2, h3⟩
    · split
      · exact ⟨h1, h2, h3⟩
      · rename_i task hfind
        have hdc := runInv_downloadChapter env sched task
          { st with isProcessing := true } h1 h2 h3
        split
        · rename_i u hres
          cases u
          exact ih _ (hdc.2 hres) hdc.1.2.1 hdc.1.2.2
        · rename_i e hres
          have hno : NoDl (updateFirst task.id
              (fun u => { u with status := DownloadStatus.FAILED,
                                 error := some e,
                                 updatedAt := (downloadChapter env sched task
                                   { st with isProcessing := true }).1.now })
              (downloadChapter env sched task
                { st with isProcessing := true }).1.queue) :=
            noDl_updateFirst_fix hdc.1.1 hdc.1.2.1 (fun u hdl => absurd
              (show DownloadStatus.FAILED = DownloadStatus.DOWNLOADING from hdl)
              (by decide))
          have hnd : IdsNodup (updateFirst task.id
              (fun u => { u with status := DownloadStatus.FAILED,
                                 error := some e,
                                 updatedAt := (downloadChapter env sched task
                                   { st with isProcessing := true }).1.now })
              (downloadChapter env sched task
                { st with isProcessing := true }).1.queue) :=
            idsNodup_updateFirst (fun u => rfl) hdc.1.2.1
          apply ih
          · exact hno
          · exact hnd
          · intro q hqm
            rcases List.mem_append.mp hqm with hqm | hqm
            · exact hdc.1.2.2 q hqm
            · simp only [List.mem_singleton] at hqm
              subst hqm
              simp [countDl_eq_zero hno]

/-! ### Snapshot histories only grow -/

theorem snaps_trans {s1 s2 s3 : List (List DownloadTask)}
    (h1 : ∃ d, s2 = s1 ++ d) (h2 : ∃ d, s3 = s2 ++ d) : ∃ d, s3 = s1 ++ d := by
  obtain ⟨d1, rfl⟩ := h1
  obtain ⟨d2, rfl⟩ := h2
  exact ⟨d1 ++ d2, by simp⟩

theorem snaps_pauseDownload (tid : String) (st : EngineState) :
    ∃ d, (pauseDownload tid st).snapshots = st.snapshots ++ d := by
  unfold pauseDownload
  split
  · exact ⟨[], (List.append_nil _).symm⟩
  · split
    · exact ⟨_, rfl⟩
    · exact ⟨[], (List.append_nil _).symm⟩

theorem snaps_resumeDownload (tid : String) (st : EngineState) :
    ∃ d, (resumeDownload tid st).snapshots = st.snapshots ++ d := by
  unfold resumeDownload
  split
  · exact ⟨[], (List.append_nil _).symm⟩
  · split
    · exact ⟨_, rfl⟩
    · exact ⟨[], (List.append_nil _).symm⟩

theorem snaps_cancelDownload (tid : String) (st : EngineState) :
    ∃ d, (cancelDownload tid st).snapshots = st.snapshots ++ d := by
  unfold cancelDownload
  split
  · exact ⟨[], (List.append_nil _).symm⟩
  · exact ⟨_, rfl⟩

theorem snaps_applyEvent (st : EngineState) (e : Event) :
    ∃ d, (applyEvent st e).snapshots = st.snapshots ++ d := by
  cases e with
  | pause tid => exact snaps_pauseDownload tid st
  | resume tid => exact snaps_resumeDownload tid st
  | cancel tid => exact snaps_cancelDownload tid st

theorem snaps_applyEvents :
    ∀ (evs : List Event) (st : EngineState),
      ∃ d, (applyEvents st evs).snapshots = st.snapshots ++ d := by
  intro evs
  induction evs with
  | nil => intro st; exact ⟨[], (List.append_nil _).symm⟩
  | cons e es ih =>
    intro st
    exact snaps_trans (snaps_applyEvent st e) (ih (applyEvent st e))

theorem snaps_checkpoint (sched : Nat → List Event) (st : EngineState) :
    ∃ d, (checkpoint sched st).snapshots = st.snapshots ++ d :=
  snaps_applyEvents _ _

theorem snaps_pageLoop (env : DownloadEnv) (sched : Nat → List Event)
    (tid chId dir : String) (n : Nat) :
    ∀ (k i : Nat) (st : EngineState),
      ∃ d, (pageLoop env sched tid chId dir n k i st).1.snapshots
        = st.snapshots ++ d := by
  intro k
  induction k with
  | zero => intro i st; exact ⟨_, rfl⟩
  | succ k ih =>
    intro i st
    simp only [pageLoop]
    have hc := snaps_checkpoint sched st
    split
    · exact hc
    · split
      · split
        · exact hc
        · exact snaps_trans hc (snaps_trans ⟨_, rfl⟩ (ih _ _))
      · exact hc

theorem snaps_trans_from (s1 : List (List DownloadTask))
    {s2 s3 : List (List DownloadTask)}
    (h1 : ∃ d, s2 = s1 ++ d) (h2 : ∃ d, s3 = s2 ++ d) : ∃ d, s3 = s1 ++ d :=
  snaps_trans h1 h2

theorem snaps_downloadChapter (env : DownloadEnv) (sched : Nat → List Event)
    (task : DownloadTask) (st : EngineState) :
    ∃ d, (downloadChapter env sched task st).1.snapshots
      = st.snapshots ++ claimedQueue task st :: d := by
  simp only [downloadChapter]
  split
  · split
    · exact ⟨[], rfl⟩
    · rename_i n hpc
      obtain ⟨d2, hd2⟩ := snaps_pageLoop env sched task.id task.chapterId
        (getChapterDirectory task.mangaId task.chapterId) n n 0
        { recordTotal task n (markClaimed task st) with
          fs := (recordTotal task n (markClaimed task st)).fs.ensureDir
            (getChapterDirectory task.mangaId task.chapterId) }
      refine ⟨(recordTotal task n (markClaimed task st)).queue :: d2, ?_⟩
      rw [hd2]
      simp [recordTotal, markClaimed, saveQueue]
  · exact ⟨[], rfl⟩

theorem snaps_processQueue (env : DownloadEnv) (sched : Nat → List Event) :
    ∀ (fuel : Nat) (st : EngineState),
      ∃ d, (processQueue env sched fuel st).snapshots = st.snapshots ++ d := by
  intro fuel
  induction fuel with
  | zero => intro st; exact ⟨[], (List.append_nil _).symm⟩
  | succ fuel ih =>
    intro st
    simp only [processQueue]
    split
    · exact ⟨[], (List.append_nil _).symm⟩
    · split
      · exact ⟨[], (List.append_nil _).symm⟩
      · rename_i task hfind
        have hdc := snaps_downloadChapter env sched task { st with isProcessing := true }
        obtain ⟨d1, hd1⟩ := hdc
        split
        · exact snaps_trans ⟨_, hd1⟩ (ih _)
        · refine snaps_trans (snaps_trans ⟨_, hd1⟩ ⟨_, rfl⟩) (ih _)

theorem get?_append_len {α : Type} :
    ∀ (l1 : List α) (a : α) (d : List α), (l1 ++ a :: d).get? l1.length = some a := by
  intro l1
  induction l1 with
  | nil => intro a d; rfl
  | cons x xs ih => intro a d; simpa using ih a d

theorem processQueue_claims_first (env : DownloadEnv) (sched : Nat → List Event)
    (fuel : Nat) (st : EngineState) (pre : List DownloadTask) (t : DownloadTask)
    (post : List DownloadTask)
    (hidle : st.isProcessing = false)
    (hq : st.queue = pre ++ t :: post)
    (hpres : ∀ u ∈ pre, u.status ≠ DownloadStatus.PENDING)
    (ht : t.status = DownloadStatus.PENDING)
    (hpids : ∀ u ∈ pre, u.id ≠ t.id) :
    (processQueue env sched (fuel + 1) st).snapshots.get? st.snapshots.length
      = some (pre ++
          { t with status := DownloadStatus.DOWNLOADING, updatedAt := st.now } :: post) := by
  have hfind : st.queue.find? (fun v => v.status == DownloadStatus.PENDING) = some t := by
    rw [hq]
    apply find?_first
    · intro u hu
      simpa using hpres u hu
    · simpa using ht
  have hclaim : claimedQueue t { st with isProcessing := true }
      = pre ++ { t with status := DownloadStatus.DOWNLOADING,
                        updatedAt := st.now } :: post := by
    show updateFirst t.id _ st.queue = _
    rw [hq]
    exact updateFirst_split t.id _ pre t post hpids rfl
  simp only [processQueue]
  rw [if_neg (by simp [hidle])]
  split
  · rename_i heq
    rw [hfind] at heq
    cases heq
  · rename_i task0 heq
    have htask0 : task0 = t := Option.some.inj (heq.symm.trans hfind)
    subst htask0
    obtain ⟨d1, hd1⟩ := snaps_downloadChapter env sched task0
      { st with isProcessing := true }
    split
    · rename_i u hres
      obtain ⟨d2, hd2⟩ := snaps_processQueue env sched fuel
        { (downloadChapter env sched task0 { st with isProcessing := true }).1 with
          isProcessing := false }
      rw [hd2]
      show ((downloadChapter env sched task0
        { st with isProcessing := true }).1.snapshots ++ d2).get?
          st.snapshots.length = _
      rw [hd1, List.append_assoc, List.cons_append, hclaim]
      exact get?_append_len _ _ _
    · rename_i e hres
      obtain ⟨d2, hd2⟩ := snaps_processQueue env sched fuel
        { markFailed task0.id e
            (downloadChapter env sched task0 { st with isProcessing := true }).1 with
          isProcessing := false }
      rw [hd2]
      show (((downloadChapter env sched task0
        { st with isProcessing := true }).1.snapshots ++ [_]) ++ d2).get?
          st.snapshots.length = _
      rw [hd1, List.append_assoc, List.append_assoc, List.cons_append,
        List.cons_append, hclaim]
      exact get?_append_len _ _ _

/-- C5: the engine is strictly sequential.  (1) While the `isProcessing`
guard is set, a further `processQueue` call is a no-op.  (2) When idle, the
engine claims exactly the first task in stored-list order whose status is
`PENDING`: the first snapshot it appends is the queue with that task — in
place — marked `DOWNLOADING`.  (3) Starting from a queue with no
`DOWNLOADING` task (and distinct ids, snapshots so far well-formed), every
snapshot ever observed and the final queue contain at most one
`DOWNLOADING` task. -/
theorem engine_sequential_fifo (env : DownloadEnv) (sched : Nat → List Event)
    (fuel : Nat) (st : EngineState) :
    (st.isProcessing = true → processQueue env sched fuel st = st) ∧
    (∀ pre t post, st.isProcessing = false → 0 < fuel →
      st.queue = pre ++ t :: post →
      (∀ u ∈ pre, u.status ≠ DownloadStatus.PENDING) →
      t.status = DownloadStatus.PENDING →
      (∀ u ∈ pre, u.id ≠ t.id) →
      (processQueue env sched fuel st).snapshots.get? st.snapshots.length
        = some (pre ++
            { t with status := DownloadStatus.DOWNLOADING,
                     updatedAt := st.now } :: post)) ∧
    (NoDl st.queue → IdsNodup st.queue → SnapBound st →
      countDl (processQueue env sched fuel st).queue ≤ 1 ∧
      ∀ q ∈ (processQueue env sched fuel st).snapshots, countDl q ≤ 1) := by
  refine ⟨?_, ?_, ?_⟩
  · intro hp
    cases fuel with
    | zero => rfl
    | succ fuel =>
      simp only [processQueue]
      rw [if_pos hp]
  · intro pre t post hidle hfuel hq hpres ht hpids
    cases fuel with
    | zero => exact absurd hfuel (by simp)
    | succ fuel =>
      exact processQueue_claims_first env sched fuel st pre t post
        hidle hq hpres ht hpids
  · intro h1 h2 h3
    have h := runInv_processQueue env sched fuel st h1 h2 h3
    exact ⟨by simp [countDl_eq_zero h.1], h.2.2⟩

def bTask : DownloadTask := mkTask ("B1") ("mb") ("cb") ("s") DownloadStatus.COMPLETED
def pTask : DownloadTask := mkTask ("P1") ("mp") ("cp") ("s") DownloadStatus.PENDING
def fifoState : EngineState :=
  { queue := [bTask, pTask], isProcessing := false, fs := baseFs,
    snapshots := [], now := 7, tick := 0 }
def busyState : EngineState :=
  { queue := [pTask], isProcessing := true, fs := baseFs,
    snapshots := [], now := 0, tick := 0 }

/-- Witness for C5: a call while the guard is set changes nothing; on the
concrete two-task queue the first snapshot marks the first `PENDING` task
(skipping the completed one ahead of it) `DOWNLOADING` in place; and the
final queue of the drain has at most one `DOWNLOADING` task. -/
theorem engine_sequential_fifo_witness :
    processQueue trivEnv noEvents 2 busyState = busyState ∧
    (processQueue (okEnv 1) noEvents 1 fifoState).snapshots.get? 0
      = some [bTask, { pTask with status := DownloadStatus.DOWNLOADING,
                                  updatedAt := 7 }] ∧
    countDl (processQueue (okEnv 1) noEvents 1 fifoState).queue ≤ 1 := by
  refine ⟨(engine_sequential_fifo trivEnv noEvents 2 busyState).1 rfl, ?_, ?_⟩
  · exact (engine_sequential_fifo (okEnv 1) noEvents 1 fifoState).2.1
      [bTask] pTask [] rfl (by decide) rfl (by decide) rfl (by decide)
  · exact ((engine_sequential_fifo (okEnv 1) noEvents 1 fifoState).2.2
      (by decide) (by decide) (by decide)).1

/-! ## C7 (amended): downloadedPages is monotone within a fresh run -/

/-- The sequence of `downloadedPages` values a given task shows across a
snapshot history (skipping snapshots where the task is absent). -/
def dpSeq (tid : String) (snaps : List (List DownloadTask)) : List Nat :=
  snaps.filterMap
    (fun q => (q.find? (fun v => v.id == tid)).map (fun t => t.downloadedPages))

theorem find?_updateFirst_keep (tid' : String) (f : DownloadTask → DownloadTask)
    (hid : ∀ u, (f u).id = u.id)
    (hdp : ∀ u, (f u).downloadedPages = u.downloadedPages)
    (htp : ∀ u, (f u).totalPages = u.totalPages) (tid : String) :
    ∀ (q : List DownloadTask),
      ((updateFirst tid' f q).find? (fun v => v.id == tid)).map
        (fun t => (t.downloadedPages, t.totalPages))
      = (q.find? (fun v => v.id == tid)).map
        (fun t => (t.downloadedPages, t.totalPages)) := by
  intro q
  induction q with
  | nil => rfl
  | cons x xs ih =>
    by_cases hx' : x.id = tid'
    · simp only [updateFirst, if_pos hx']
      by_cases hx : x.id = tid
      · rw [List.find?_cons_of_pos _ (by simp [hid, hx]),
            List.find?_cons_of_pos _ (by simp [hx])]
        simp [hdp, htp]
      · rw [List.find?_cons_of_neg _ (by simp [hid, hx]),
            List.find?_cons_of_neg _ (by simp [hx])]
    · simp only [updateFirst, if_neg hx']
      by_cases hx : x.id = tid
      · rw [List.find?_cons_of_pos _ (by simp [hx]),
            List.find?_cons_of_pos _ (by simp [hx])]
      · rw [List.find?_cons_of_neg _ (by simp [hx]),
            List.find?_cons_of_neg _ (by simp [hx])]
        exact ih

theorem find?_updateFirst_self (tid : String) (f : DownloadTask → DownloadTask)
    (hid : ∀ u, (f u).id = u.id) :
    ∀ (q : List DownloadTask),
      (updateFirst tid f q).find? (fun v => v.id == tid)
        = (q.find? (fun v => v.id == tid)).map f := by
  intro q
  induction q with
  | nil => rfl
  | cons x xs ih =>
    by_cases hx : x.id = tid
    · simp only [updateFirst, if_pos hx]
      rw [List.find?_cons_of_pos _ (by simp [hid, hx]),
          List.find?_cons_of_pos _ (by simp [hx])]
      rfl
    · simp only [updateFirst, if_neg hx]
      rw [List.find?_cons_of_neg _ (by simp [hx]),
          List.find?_cons_of_neg _ (by simp [hx])]
      exact ih

theorem find?_removeFirst_ne (tid' tid : String) (hne : tid' ≠ tid) :
    ∀ (q : List DownloadTask),
      (removeFirst tid' q).find? (fun v => v.id == tid)
        = q.find? (fun v => v.id == tid) := by
  intro q
  induction q with
  | nil => rfl
  | cons x xs ih =>
    by_cases hx' : x.id = tid'
    · simp only [removeFirst, if_pos hx']
      rw [List.find?_cons_of_neg _ (by simp [hx', hne])]
    · simp only [removeFirst, if_neg hx']
      by_cases hx : x.id = tid
      · rw [List.find?_cons_of_pos _ (by simp [hx]),
            List.find?_cons_of_pos _ (by simp [hx])]
      · rw [List.find?_cons_of_neg _ (by simp [hx]),
            List.find?_cons_of_neg _ (by simp [hx])]
        exact ih

theorem find?_removeFirst_self (tid : String) :
    ∀ (q : List DownloadTask), IdsNodup q →
      (removeFirst tid q).find? (fun v => v.id == tid) = none := by
  intro q
  induction q with
  | nil => intro _; rfl
  | cons x xs ih =>
    intro hnd
    by_cases hx : x.id = tid
    · simp only [removeFirst, if_pos hx]
      rw [List.find?_eq_none]
      intro u hu
      simp only [beq_iff_eq]
      intro heq
      refine (List.nodup_cons.mp hnd).1 ?_
      show x.id ∈ List.map (fun u => u.id) xs
      rw [hx]
      exact List.mem_map.mpr ⟨u, hu, heq⟩
    · simp only [removeFirst, if_neg hx]
      rw [List.find?_cons_of_neg _ (by simp [hx])]
      exact ih (List.nodup_cons.mp hnd).2

theorem dpSeq_append_some {tid : String} {q : List DownloadTask}
    {t : DownloadTask} (s : List (List DownloadTask))
    (hq : q.find? (fun v => v.id == tid) = some t) :
    dpSeq tid (s ++ [q]) = dpSeq tid s ++ [t.downloadedPages] := by
  unfold dpSeq
  rw [List.filterMap_append]
  congr 1
  simp [List.filterMap, hq]

theorem dpSeq_append_none {tid : String} {q : List DownloadTask}
    (s : List (List DownloadTask))
    (hq : q.find? (fun v => v.id == tid) = none) :
    dpSeq tid (s ++ [q]) = dpSeq tid s := by
  unfold dpSeq
  rw [List.filterMap_append]
  have : List.filterMap
      (fun q => (q.find? (fun v => v.id == tid)).map (fun t => t.downloadedPages))
      [q] = [] := by
    simp [List.filterMap, hq]
  rw [this, List.append_nil]

theorem sorted_append_singleton {l : List Nat} {a : Nat}
    (h : l.Sorted (· ≤ ·)) (ha : ∀ x ∈ l, x ≤ a) :
    (l ++ [a]).Sorted (· ≤ ·) := by
  rw [List.Sorted, List.pairwise_append]
  refine ⟨h, List.pairwise_singleton _ _, ?_⟩
  intro x hx b hb
  simp only [List.mem_singleton] at hb
  subst hb
  exact ha x hx

/-- Invariant of a fresh engine run on task `tid` with `n` total pages,
about to download page `i`: the observed `downloadedPages` sequence is
sorted and bounded by `i`, every observed snapshot keeps
`downloadedPages ≤ totalPages`, the queue's view of the task is exact, and
ids stay distinct. -/
def FreshInv (tid : String) (n i : Nat) (st : EngineState) : Prop :=
  (dpSeq tid st.snapshots).Sorted (· ≤ ·) ∧
  (∀ q ∈ st.snapshots, ∀ t, q.find? (fun v => v.id == tid) = some t →
    t.downloadedPages ≤ t.totalPages) ∧
  (∀ t, st.queue.find? (fun v => v.id == tid) = some t →
    t.downloadedPages = i ∧ t.totalPages = n ∧ i ≤ n) ∧
  (∀ x ∈ dpSeq tid st.snapshots, x ≤ i) ∧
  IdsNodup st.queue

theorem freshInv_saveUpdate (tid tid' : String) (n i : Nat) (st : EngineState)
    (f : DownloadTask → DownloadTask)
    (hid : ∀ u, (f u).id = u.id)
    (hdp : ∀ u, (f u).downloadedPages = u.downloadedPages)
    (htp : ∀ u, (f u).totalPages = u.totalPages)
    (h : FreshInv tid n i st) (m : Nat) :
    FreshInv tid n i
      (saveQueue { st with queue := updateFirst tid' f st.queue, now := m }) := by
  obtain ⟨hA, hD, hC, hB, hE⟩ := h
  have hC' : ∀ t, (updateFirst tid' f st.queue).find? (fun v => v.id == tid) = some t →
      t.downloadedPages = i ∧ t.totalPages = n ∧ i ≤ n := by
    intro t hfind
    have hkeep := find?_updateFirst_keep tid' f hid hdp htp tid st.queue
    rw [hfind] at hkeep
    cases hr : st.queue.find? (fun v => v.id == tid) with
    | none => rw [hr] at hkeep; simp at hkeep
    | some t0 =>
      rw [hr] at hkeep
      simp only [Option.map_some', Option.some.injEq, Prod.mk.injEq] at hkeep
      have h0 := hC t0 hr
      exact ⟨hkeep.1.trans h0.1, hkeep.2.trans h0.2.1, h0.2.2⟩
  refine ⟨?_, ?_, hC', ?_, idsNodup_updateFirst hid hE⟩
  · show (dpSeq tid (st.snapshots ++ [updateFirst tid' f st.queue])).Sorted (· ≤ ·)
    cases hr : (updateFirst tid' f st.queue).find? (fun v => v.id == tid) with
    | none => rw [dpSeq_append_none _ hr]; exact hA
    | some t =>
      rw [dpSeq_append_some _ hr]
      refine sorted_append_singleton hA ?_
      intro x hx
      rw [(hC' t hr).1]
      exact hB x hx
  · intro q hq
    rcases List.mem_append.mp hq with hq | hq
    · exact hD q hq
    · simp only [List.mem_singleton] at hq
      subst hq
      intro t hfind
      obtain ⟨h1, h2, h3⟩ := hC' t hfind
      omega
  · show ∀ x ∈ dpSeq tid (st.snapshots ++ [updateFirst tid' f st.queue]), x ≤ i
    cases hr : (updateFirst tid' f st.queue).find? (fun v => v.id == tid) with
    | none => rw [dpSeq_append_none _ hr]; exact hB
    | some t =>
      rw [dpSeq_append_some _ hr]
      intro x hx
      rcases List.mem_append.mp hx with hx | hx
      · exact hB x hx
      · simp only [List.mem_singleton] at hx
        subst hx
        rw [(hC' t hr).1]

theorem freshInv_pauseDownload (tid tid' : String) (n i : Nat) (st : EngineState)
    (h : FreshInv tid n i st) : FreshInv tid n i (pauseDownload tid' st) := by
  unfold pauseDownload
  split
  · exact h
  · split
    · exact freshInv_saveUpdate tid tid' n i st
        (fun u => { u with status := DownloadStatus.PAUSED, updatedAt := st.now })
        (fun u => rfl) (fun u => rfl) (fun u => rfl) h (st.now + 1)
    · exact h

theorem freshInv_resumeDownload (tid tid' : String) (n i : Nat) (st : EngineState)
    (h : FreshInv tid n i st) : FreshInv tid n i (resumeDownload tid' st) := by
  unfold resumeDownload
  split
  · exact h
  · split
    · exact freshInv_saveUpdate tid tid' n i st
        (fun u => { u with status := DownloadStatus.PENDING, updatedAt := st.now })
        (fun u => rfl) (fun u => rfl) (fun u => rfl) h (st.now + 1)
    · exact h

theorem freshInv_cancelDownload (tid tid' : String) (n i : Nat) (st : EngineState)
    (h : FreshInv tid n i st) : FreshInv tid n i (cancelDownload tid' st) := by
  obtain ⟨hA, hD, hC, hB, hE⟩ := h
  unfold cancelDownload
  split
  · exact ⟨hA, hD, hC, hB, hE⟩
  · have hE' : IdsNodup (removeFirst tid' st.queue) := idsNodup_removeFirst hE
    by_cases hne : tid' = tid
    · subst hne
      have hr : (removeFirst tid' st.queue).find? (fun v => v.id == tid') = none :=
        find?_removeFirst_self tid' st.queue hE
      refine ⟨?_, ?_, ?_, ?_, hE'⟩
      · show (dpSeq tid' (st.snapshots ++ [removeFirst tid' st.queue])).Sorted (· ≤ ·)
        rw [dpSeq_append_none _ hr]
        exact hA
      · intro q hq
        rcases List.mem_append.mp hq with hq | hq
        · exact hD q hq
        · simp only [List.mem_singleton] at hq
          subst hq
          intro t hfind
          have hfind2 : (removeFirst tid' st.queue).find?
              (fun v => v.id == tid') = some t := hfind
          rw [hr] at hfind2
          cases hfind2
      · intro t hfind
        have hfind2 : (removeFirst tid' st.queue).find?
            (fun v => v.id == tid') = some t := hfind
        rw [hr] at hfind2
        cases hfind2
      · show ∀ x ∈ dpSeq tid' (st.snapshots ++ [removeFirst tid' st.queue]), x ≤ i
        rw [dpSeq_append_none _ hr]
        exact hB
    · have hr : (removeFirst tid' st.queue).find? (fun v => v.id == tid)
          = st.queue.find? (fun v => v.id == tid) :=
        find?_removeFirst_ne tid' tid hne st.queue
      have hC' : ∀ t, (removeFirst tid' st.queue).find? (fun v => v.id == tid) = some t →
          t.downloadedPages = i ∧ t.totalPages = n ∧ i ≤ n := by
        intro t hfind
        rw [hr] at hfind
        exact hC t hfind
      refine ⟨?_, ?_, hC', ?_, hE'⟩
      · show (dpSeq tid (st.snapshots ++ [removeFirst tid' st.queue])).Sorted (· ≤ ·)
        cases hr2 : (removeFirst tid' st.queue).find? (fun v => v.id == tid) with
        | none => rw [dpSeq_append_none _ hr2]; exact hA
        | some t =>
          rw [dpSeq_append_some _ hr2]
          refine sorted_append_singleton hA ?_
          intro x hx
          rw [(hC' t hr2).1]
          exact hB x hx
      · intro q hq
        rcases List.mem_append.mp hq with hq | hq
        · exact hD q hq
        · simp only [List.mem_singleton] at hq
          subst hq
          intro t hfind
          obtain ⟨h1, h2, h3⟩ := hC' t hfind
          omega
      · show ∀ x ∈ dpSeq tid (st.snapshots ++ [removeFirst tid' st.queue]), x ≤ i
        cases hr2 : (removeFirst tid' st.queue).find? (fun v => v.id == tid) with
        | none => rw [dpSeq_append_none _ hr2]; exact hB
        | some t =>
          rw [dpSeq_append_some _ hr2]
          intro x hx
          rcases List.mem_append.mp hx with hx | hx
          · exact hB x hx
          · simp only [List.mem_singleton] at hx
            subst hx
            rw [(hC' t hr2).1]

theorem freshInv_applyEvent (tid : String) (n i : Nat) (st : EngineState) (e : Event)
    (h : FreshInv tid n i st) : FreshInv tid n i (applyEvent st e) := by
  cases e with
  | pause tid' => exact freshInv_pauseDownload tid tid' n i st h
  | resume tid' => exact freshInv_resumeDownload tid tid' n i st h
  | cancel tid' => exact freshInv_cancelDownload tid tid' n i st h

theorem freshInv_applyEvents (tid : String) (n i : Nat) :
    ∀ (evs : List Event) (st : EngineState), FreshInv tid n i st →
      FreshInv tid n i (applyEvents st evs) := by
  intro evs
  induction evs with
  | nil => intro st h; exact h
  | cons e es ih => intro st h; exact ih _ (freshInv_applyEvent tid n i _ e h)

theorem freshInv_checkpoint (tid : String) (n i : Nat) (sched : Nat → List Event)
    (st : EngineState) (h : FreshInv tid n i st) :
    FreshInv tid n i (checkpoint sched st) :=
  freshInv_applyEvents tid n i _ _ h

theorem freshInv_pageLoop (env : DownloadEnv) (sched : Nat → List Event)
    (tid chId dir : String) (n : Nat) :
    ∀ (k i : Nat) (st : EngineState), i + k = n → FreshInv tid n i st →
      (dpSeq tid (pageLoop env sched tid chId dir n k i st).1.snapshots).Sorted
        (· ≤ ·) ∧
      (∀ q ∈ (pageLoop env sched tid chId dir n k i st).1.snapshots, ∀ t,
        q.find? (fun v => v.id == tid) = some t →
        t.downloadedPages ≤ t.totalPages) := by
  intro k
  induction k with
  | zero =>
    intro i st hin h
    simp only [pageLoop]
    have h2 := freshInv_saveUpdate tid tid n i st
      (fun u => { u with status := DownloadStatus.COMPLETED, progress := 100,
                         updatedAt := st.now })
      (fun u => rfl) (fun u => rfl) (fun u => rfl) h (st.now + 1)
    exact ⟨h2.1, h2.2.1⟩
  | succ k ih =>
    intro i st hin h
    simp only [pageLoop]
    have h1 := freshInv_checkpoint tid n i sched st h
    split
    · exact ⟨h1.1, h1.2.1⟩
    · rename_i cur hfind
      split
      · rename_i hdl
        split
        · exact ⟨h1.1, h1.2.1⟩
        · rename_i u hfp
          refine ih (i + 1) _ (by omega) ?_
          obtain ⟨hA, hD, hC, hB, hE⟩ := h1
          obtain ⟨hcd, hct, hcn⟩ := hC cur hfind
          have hself := find?_updateFirst_self tid
            (fun v => { v with downloadedPages := i + 1,
                               progress := jsRound (100 * (i + 1)) n,
                               updatedAt := (checkpoint sched st).now })
            (fun v => rfl) (checkpoint sched st).queue
          rw [hfind] at hself
          refine ⟨?_, ?_, ?_, ?_, idsNodup_updateFirst (fun v => rfl) hE⟩
          · show (dpSeq tid ((checkpoint sched st).snapshots ++
              [updateFirst tid
                (fun v => { v with downloadedPages := i + 1,
                                   progress := jsRound (100 * (i + 1)) n,
                                   updatedAt := (checkpoint sched st).now })
                (checkpoint sched st).queue])).Sorted (· ≤ ·)
            rw [dpSeq_append_some _ hself]
            refine sorted_append_singleton hA ?_
            intro x hx
            exact Nat.le_succ_of_le (hB x hx)
          · intro q hq
            rcases List.mem_append.mp hq with hq | hq
            · exact hD q hq
            · simp only [List.mem_singleton] at hq
              subst hq
              intro t hf
              have ht : t = { cur with downloadedPages := i + 1,
                                       progress := jsRound (100 * (i + 1)) n,
                                       updatedAt := (checkpoint sched st).now } := by
                refine Option.some.inj (Eq.trans ?_ hself)
                exact hf.symm
              subst ht
              show i + 1 ≤ cur.totalPages
              omega
          · intro t hf
            have ht : t = { cur with downloadedPages := i + 1,
                                     progress := jsRound (100 * (i + 1)) n,
                                     updatedAt := (checkpoint sched st).now } := by
              refine Option.some.inj (Eq.trans ?_ hself)
              exact hf.symm
            subst ht
            refine ⟨rfl, ?_, by omega⟩
            show cur.totalPages = n
            exact hct
          · show ∀ x ∈ dpSeq tid ((checkpoint sched st).snapshots ++
              [updateFirst tid
                (fun v => { v with downloadedPages := i + 1,
                                   progress := jsRound (100 * (i + 1)) n,
                                   updatedAt := (checkpoint sched st).now })
                (checkpoint sched st).queue]), x ≤ i + 1
            rw [dpSeq_append_some _ hself]
            intro x hx
            rcases List.mem_append.mp hx with hx | hx
            · exact Nat.le_succ_of_le (hB x hx)
            · simp only [List.mem_singleton] at hx
              subst hx
              show i + 1 ≤ i + 1
              exact le_refl _
      · rename_i hdl
        exact ⟨h1.1, h1.2.1⟩

/-- C7 amended: for a freshly enqueued task (`downloadedPages = 0`,
`totalPages = 0`), a single engine run — under any external-event schedule
and any provider behaviour — produces a snapshot history in which the
task's `downloadedPages` sequence is monotonically non-decreasing, and in
which `downloadedPages` never exceeds `totalPages`.  Across a pause/resume
boundary the original claim fails (`downloadedPages_decrease_cex`): the
re-claimed run starts over at page 0 while the stale count is still
visible. -/
theorem downloadedPages_monotone_fresh_run (env : DownloadEnv)
    (sched : Nat → List Event) (task : DownloadTask) (st : EngineState)
    (hsn : st.snapshots = [])
    (hfind : st.queue.find? (fun v => v.id == task.id) = some task)
    (hnd : IdsNodup st.queue)
    (hdp : task.downloadedPages = 0) (htp : task.totalPages = 0) :
    (dpSeq task.id (downloadChapter env sched task st).1.snapshots).Sorted
      (· ≤ ·) ∧
    (∀ q ∈ (downloadChapter env sched task st).1.snapshots, ∀ t,
      q.find? (fun v => v.id == task.id) = some t →
      t.downloadedPages ≤ t.totalPages) := by
  have hInv0 : FreshInv task.id 0 0 st := by
    refine ⟨?_, ?_, ?_, ?_, hnd⟩
    · rw [hsn]
      exact List.sorted_nil
    · intro q hq
      rw [hsn] at hq
      cases hq
    · intro t hf
      have ht : t = task := Option.some.inj (hf.symm.trans hfind)
      subst ht
      exact ⟨hdp, htp, le_refl 0⟩
    · intro x hx
      rw [hsn] at hx
      cases hx
  simp only [downloadChapter]
  have hM : FreshInv task.id 0 0 (markClaimed task st) :=
    freshInv_saveUpdate task.id task.id 0 0 st
      (fun u => { u with status := DownloadStatus.DOWNLOADING,
                         updatedAt := st.now })
      (fun u => rfl) (fun u => rfl) (fun u => rfl) hInv0 (st.now + 1)
  split
  · split
    · exact ⟨hM.1, hM.2.1⟩
    · rename_i n hpc
      have hMfind : (markClaimed task st).queue.find? (fun v => v.id == task.id)
          = some { task with status := DownloadStatus.DOWNLOADING,
                             updatedAt := st.now } := by
        show (updateFirst task.id
          (fun u => { u with status := DownloadStatus.DOWNLOADING,
                             updatedAt := st.now }) st.queue).find?
            (fun v => v.id == task.id) = _
        rw [find?_updateFirst_self task.id
          (fun u => { u with status := DownloadStatus.DOWNLOADING,
                             updatedAt := st.now }) (fun u => rfl) st.queue, hfind]
        rfl
      obtain ⟨hA, hD, hC, hB, hE⟩ := hM
      have hself := find?_updateFirst_self task.id
        (fun u => { u with totalPages := n }) (fun u => rfl)
        (markClaimed task st).queue
      rw [hMfind] at hself
      have hT : FreshInv task.id n 0 (recordTotal task n (markClaimed task st)) := by
        refine ⟨?_, ?_, ?_, ?_, idsNodup_updateFirst (fun u => rfl) hE⟩
        · show (dpSeq task.id ((markClaimed task st).snapshots ++
            [updateFirst task.id (fun u => { u with totalPages := n })
              (markClaimed task st).queue])).Sorted (· ≤ ·)
          rw [dpSeq_append_some _ hself]
          refine sorted_append_singleton hA ?_
          intro x hx
          show x ≤ task.downloadedPages
          rw [hdp]
          exact hB x hx
        · intro q hq
          rcases List.mem_append.mp hq with hq | hq
          · exact hD q hq
          · simp only [List.mem_singleton] at hq
            subst hq
            intro t hf
            have ht : t = { task with
                              status := DownloadStatus.DOWNLOADING,
                              updatedAt := st.now, totalPages := n } :=
              Option.some.inj (hf.symm.trans hself)
            subst ht
            show task.downloadedPages ≤ n
            omega
        · intro t hf
          have ht : t = { task with
                            status := DownloadStatus.DOWNLOADING,
                            updatedAt := st.now, totalPages := n } :=
            Option.some.inj (hf.symm.trans hself)
          subst ht
          exact ⟨hdp, rfl, Nat.zero_le n⟩
        · show ∀ x ∈ dpSeq task.id ((markClaimed task st).snapshots ++
            [updateFirst task.id (fun u => { u with totalPages := n })
              (markClaimed task st).queue]), x ≤ 0
          rw [dpSeq_append_some _ hself]
          intro x hx
          rcases List.mem_append.mp hx with hx | hx
          · exact hB x hx
          · simp only [List.mem_singleton] at hx
            subst hx
            show task.downloadedPages ≤ 0
            omega
      exact freshInv_pageLoop env sched task.id task.chapterId
        (getChapterDirectory task.mangaId task.chapterId) n n 0 _
        (by omega) hT
  · exact ⟨hM.1, hM.2.1⟩

def c7task : DownloadTask := mkTask ("T") ("m") ("c") ("s") DownloadStatus.PENDING

/-- Witness for the amended C7: on the concrete fresh 2-page run the
observed `downloadedPages` sequence is sorted. -/
theorem downloadedPages_monotone_fresh_run_witness :
    (dpSeq ("T")
      (downloadChapter (okEnv 2) noEvents c7task c7State).1.snapshots).Sorted
      (· ≤ ·) :=
  (downloadedPages_monotone_fresh_run (okEnv 2) noEvents c7task c7State
    rfl (by decide) (by decide) rfl rfl).1

/-! ## C3: cooperative pause between pages -/

theorem checkpoint_noevents {sched : Nat → List Event} {st : EngineState}
    (hsched : sched st.tick = []) :
    checkpoint sched st = { st with tick := st.tick + 1 } := by
  unfold checkpoint
  rw [hsched]
  rfl

theorem pageLoop_step (env : DownloadEnv) (sched : Nat → List Event)
    (tid chId dir : String) (n k i : Nat) (st : EngineState) (cur : DownloadTask)
    (hsched : sched st.tick = [])
    (hfind : st.queue.find? (fun t => t.id == tid) = some cur)
    (hdl : cur.status = DownloadStatus.DOWNLOADING)
    (hfp : env.fetchPage chId i = Except.ok ()) :
    pageLoop env sched tid chId dir n (k + 1) i st
      = pageLoop env sched tid chId dir n k (i + 1)
          (recordPage tid n i
            { st with tick := st.tick + 1,
                      fs := st.fs.writeFile dir (pageFileName i) }) := by
  have hcp : checkpoint sched st = { st with tick := st.tick + 1 } :=
    checkpoint_noevents hsched
  simp only [pageLoop, hcp]
  rw [show ({ st with tick := st.tick + 1 } : EngineState).queue = st.queue from rfl,
    hfind]
  simp only [if_pos hdl, hfp]

def c3dir : String := getChapterDirectory ("m") ("c")

def c3start : EngineState :=
  { queue := [c7task], isProcessing := false,
    fs := { dirs := [DOWNLOAD_DIR], files := [] },
    snapshots := [], now := 0, tick := 0 }

/-- The claimed task during the C3 run: `n` total pages, `i` pages done,
last touched at `u`, progress `p`. -/
def c3task (n i u p : Nat) : DownloadTask :=
  { id := "T", mangaId := "m", chapterId := "c", sourceId := "s",
    status := DownloadStatus.DOWNLOADING, progress := p, totalPages := n,
    downloadedPages := i, error := none, createdAt := 0, updatedAt := u }

/-- The file store after `i` pages of the C3 run. -/
def c3fs : Nat → FileSystem
  | 0 => { dirs := [DOWNLOAD_DIR, c3dir], files := [] }
  | i + 1 => (c3fs i).writeFile c3dir (pageFileName i)

/-- The engine state at the start of loop iteration `i` of the C3 run. -/
def c3state (n i u p : Nat) (S : List (List DownloadTask)) : EngineState :=
  { queue := [c3task n i u p], isProcessing := true, fs := c3fs i,
    snapshots := S, now := i + 1, tick := i }

def c3paused (n N p : Nat) : DownloadTask :=
  { id := "T", mangaId := "m", chapterId := "c", sourceId := "s",
    status := DownloadStatus.PAUSED, progress := p, totalPages := n,
    downloadedPages := N, error := none, createdAt := 0, updatedAt := N + 1 }

def c3final (n N p : Nat) (S : List (List DownloadTask)) : EngineState :=
  { queue := [c3paused n N p], isProcessing := true, fs := c3fs N,
    snapshots := S, now := N + 2, tick := N + 1 }

theorem c3_entry (n : Nat) (sched : Nat → List Event) :
    downloadChapter (okEnv n) sched c7task { c3start with isProcessing := true }
      = pageLoop (okEnv n) sched ("T") ("c") c3dir n n 0
          (c3state n 0 0 0 [[c3task 0 0 0 0], [c3task n 0 0 0]]) := rfl

theorem c3_step (n N k i u p : Nat) (S : List (List DownloadTask)) (hiN : i < N) :
    pageLoop (okEnv n) (pauseAt N ("T")) ("T") ("c") c3dir n (k + 1) i
      (c3state n i u p S)
      = pageLoop (okEnv n) (pauseAt N ("T")) ("T") ("c") c3dir n k (i + 1)
          (c3state n (i + 1) (i + 1) (jsRound (100 * (i + 1)) n)
            (S ++ [[c3task n (i + 1) (i + 1) (jsRound (100 * (i + 1)) n)]])) := by
  have h := pageLoop_step (okEnv n) (pauseAt N ("T")) ("T") ("c") c3dir n k i
    (c3state n i u p S) (c3task n i u p)
    (by show pauseAt N ("T") i = []
        unfold pauseAt
        rw [if_neg (Nat.ne_of_lt hiN)])
    rfl rfl rfl
  exact h.trans rfl

theorem c3_pause (n N k u p : Nat) (S : List (List DownloadTask)) :
    pageLoop (okEnv n) (pauseAt N ("T")) ("T") ("c") c3dir n (k + 1) N
      (c3state n N u p S)
      = (c3final n N p (S ++ [[c3paused n N p]]), Except.ok ()) := by
  have hsched : pauseAt N ("T") (c3state n N u p S).tick = [Event.pause ("T")] := by
    show pauseAt N ("T") N = _
    unfold pauseAt
    rw [if_pos rfl]
  simp only [pageLoop, checkpoint, hsched, applyEvents, List.foldl, applyEvent]
  rfl

theorem c3_loop (n N : Nat) (hNn : N < n) :
    ∀ (k i u p : Nat) (S : List (List DownloadTask)), i ≤ N → i + k = n →
      ∃ S' p', pageLoop (okEnv n) (pauseAt N ("T")) ("T") ("c") c3dir n k i
          (c3state n i u p S)
        = (c3final n N p' S', Except.ok ()) := by
  intro k
  induction k with
  | zero =>
    intro i u p S hiN hin
    exact absurd hin (by omega)
  | succ k ih =>
    intro i u p S hiN hin
    rcases Nat.lt_or_eq_of_le hiN with hlt | heq
    · rw [c3_step n N k i u p S hlt]
      exact ih (i + 1) (i + 1) (jsRound (100 * (i + 1)) n) _ (by omega) (by omega)
    · subst heq
      exact ⟨S ++ [[c3paused n i p]], p, c3_pause n i k u p S⟩

theorem processQueue_step (env : DownloadEnv) (sched : Nat → List Event)
    (fuel : Nat) (st : EngineState) (task : DownloadTask) (st' : EngineState)
    (hidle : st.isProcessing = false)
    (hfind : st.queue.find? (fun t => t.status == DownloadStatus.PENDING) = some task)
    (hdc : downloadChapter env sched task { st with isProcessing := true }
      = (st', Except.ok ())) :
    processQueue env sched (fuel + 1) st
      = processQueue env sched fuel { st' with isProcessing := false } := by
  simp only [processQueue]
  rw [if_neg (by simp [hidle])]
  split
  · rename_i h
    rw [hfind] at h
    cases h
  · rename_i t0 h
    have ht0 : t0 = task := Option.some.inj (h.symm.trans hfind)
    subst ht0
    split
    · rename_i u hres
      have h1 : (downloadChapter env sched t0 { st with isProcessing := true }).1
          = st' := by rw [hdc]
      rw [h1]
    · rename_i e hres
      rw [hdc] at hres
      simp at hres

theorem processQueue_done (env : DownloadEnv) (sched : Nat → List Event) :
    ∀ (fuel : Nat) (st : EngineState), st.isProcessing = false →
      st.queue.find? (fun t => t.status == DownloadStatus.PENDING) = none →
      processQueue env sched fuel st = st := by
  intro fuel st hidle hnone
  cases fuel with
  | zero => rfl
  | succ f =>
    simp only [processQueue]
    rw [if_neg (by simp [hidle])]
    split
    · rfl
    · rename_i t h
      rw [hnone] at h
      cases h

theorem mem_writeFile_self (fs : FileSystem) (dir name : String) :
    (dir, name) ∈ (fs.writeFile dir name).files := by
  unfold FileSystem.writeFile
  split
  · rename_i h
    exact h
  · simp

theorem mem_writeFile_iff (fs : FileSystem) (dir name : String) (e : String × String) :
    e ∈ (fs.writeFile dir name).files ↔ e ∈ fs.files ∨ e = (dir, name) := by
  unfold FileSystem.writeFile
  split
  · rename_i h
    constructor
    · exact fun he => Or.inl he
    · rintro (he | rfl)
      · exact he
      · exact h
  · simp

theorem c3fs_mem (N : Nat) (name : String) :
    (c3dir, name) ∈ (c3fs N).files ↔ ∃ j, j < N ∧ name = pageFileName j := by
  induction N with
  | zero =>
    simp [c3fs]
  | succ N ih =>
    show (c3dir, name) ∈ ((c3fs N).writeFile c3dir (pageFileName N)).files ↔ _
    rw [mem_writeFile_iff]
    constructor
    · rintro (h | h)
      · obtain ⟨j, hj, rfl⟩ := ih.mp h
        exact ⟨j, by omega, rfl⟩
      · exact ⟨N, by omega, (Prod.mk.injEq _ _ _ _).mp h |>.2⟩
    · rintro ⟨j, hj, rfl⟩
      by_cases hje : j = N
      · subst hje
        exact Or.inr rfl
      · exact Or.inl (ih.mpr ⟨j, by omega, rfl⟩)

theorem c3fs_dir (N : Nat) : ∀ e ∈ (c3fs N).files, e.1 = c3dir := by
  induction N with
  | zero => intro e he; simp [c3fs] at he
  | succ N ih =>
    intro e he
    have he' : e ∈ ((c3fs N).writeFile c3dir (pageFileName N)).files := he
    rcases (mem_writeFile_iff _ _ _ _).mp he' with h | rfl
    · exact ih e h
    · rfl

/-- C3: if a pause request for the task arrives between page `N` and page
`N+1` of an `n`-page chapter (`N < n`), the engine's per-page status
re-read stops the loop: the task ends `PAUSED` (neither `COMPLETED` nor
`FAILED`) with `downloadedPages = N`, the chapter directory holds exactly
the page files of indices `0..N-1` (and nothing else is written anywhere),
and any further engine invocation is a no-op until the task is resumed. -/
theorem pause_between_pages (n N : Nat) (hN : N < n) :
    ((processQueue (okEnv n) (pauseAt N ("T")) 2 c3start).queue.map
      (fun t => (t.status, t.downloadedPages, t.totalPages))
      = [(DownloadStatus.PAUSED, N, n)]) ∧
    (∀ name,
      (c3dir, name) ∈ (processQueue (okEnv n) (pauseAt N ("T")) 2 c3start).fs.files
        ↔ ∃ j, j < N ∧ name = pageFileName j) ∧
    (∀ e ∈ (processQueue (okEnv n) (pauseAt N ("T")) 2 c3start).fs.files,
      e.1 = c3dir) ∧
    (∀ (env2 : DownloadEnv) (sched2 : Nat → List Event) (f : Nat),
      processQueue env2 sched2 f (processQueue (okEnv n) (pauseAt N ("T")) 2 c3start)
        = processQueue (okEnv n) (pauseAt N ("T")) 2 c3start) := by
  obtain ⟨S', p', hloop⟩ := c3_loop n N hN n 0 0 0
    [[c3task 0 0 0 0], [c3task n 0 0 0]] (Nat.zero_le N) (by omega)
  have hdc : downloadChapter (okEnv n) (pauseAt N ("T")) c7task
      { c3start with isProcessing := true } = (c3final n N p' S', Except.ok ()) :=
    (c3_entry n (pauseAt N ("T"))).trans hloop
  have hrun : processQueue (okEnv n) (pauseAt N ("T")) 2 c3start
      = { c3final n N p' S' with isProcessing := false } := by
    have h1 := processQueue_step (okEnv n) (pauseAt N ("T")) 1 c3start c7task
      (c3final n N p' S') rfl rfl hdc
    have h2 := processQueue_done (okEnv n) (pauseAt N ("T")) 1
      { c3final n N p' S' with isProcessing := false } rfl rfl
    exact h1.trans h2
  refine ⟨?_, ?_, ?_, ?_⟩
  · rw [hrun]; rfl
  · intro name
    rw [hrun]
    exact c3fs_mem N name
  · intro e he
    rw [hrun] at he
    exact c3fs_dir N e he
  · intro env2 sched2 f
    rw [hrun]
    exact processQueue_done env2 sched2 f _ rfl rfl

/-- Witness for C3 at `n = 3`, `N = 1`: the task is paused with one page
done, page 0 exists on disk, page 1 does not. -/
theorem pause_between_pages_witness :
    ((processQueue (okEnv 3) (pauseAt 1 ("T")) 2 c3start).queue.map
      (fun t => (t.status, t.downloadedPages, t.totalPages))
      = [(DownloadStatus.PAUSED, 1, 3)]) ∧
    (c3dir, pageFileName 0) ∈
      (processQueue (okEnv 3) (pauseAt 1 ("T")) 2 c3start).fs.files ∧
    ¬ (c3dir, pageFileName 1) ∈
      (processQueue (okEnv 3) (pauseAt 1 ("T")) 2 c3start).fs.files := by
  have h := pause_between_pages 3 1 (by decide)
  refine ⟨h.1, ?_, ?_⟩
  · exact (h.2.1 (pageFileName 0)).mpr ⟨0, by decide, rfl⟩
  · intro hmem
    obtain ⟨j, hj, hname⟩ := (h.2.1 (pageFileName 1)).mp hmem
    have hj0 : j = 0 := by omega
    subst hj0
    exact absurd hname (by decide)

/-! ## C9: snapshot isolation of subscriber notifications

`notifyListeners` (line 74) runs `listener([...this.downloadQueue])` and
`getTasks` (line 313) returns `[...this.downloadQueue]`: a *new array*
whose elements are the store's *shared task objects*.  To reason about
what a subscriber's mutations can reach, arrays and task objects are
modelled as references into explicit heaps. -/

/-- Reference-level model of the Queue Store: task objects live in
`taskHeap` (a task reference is an index), arrays live in `arrayHeap` (an
array reference is an index; an array's contents are task references), and
`liveArr` is the reference of the store's internal `downloadQueue` array. -/
structure AliasStore where
  taskHeap : List DownloadTask
  arrayHeap : List (List Nat)
  liveArr : Nat
  deriving DecidableEq, Repr

def defaultTask : DownloadTask := mkTask ("") ("") ("") ("") DownloadStatus.PENDING

/-- The task list a client reads through the store's live array. -/
def storeTasks (s : AliasStore) : List DownloadTask :=
  (s.arrayHeap.getD s.liveArr []).filterMap (fun r => s.taskHeap.get? r)

/-- `[...this.downloadQueue]`: allocate a fresh array with the same
contents (the same task references) and hand its reference out. -/
def notifySnapshot (s : AliasStore) : AliasStore × Nat :=
  ({ s with arrayHeap := s.arrayHeap ++ [s.arrayHeap.getD s.liveArr []] },
   s.arrayHeap.length)

/-- A subscriber mutating the array value it received (push, splice,
reorder, clear, ...). -/
def writeArray (s : AliasStore) (r : Nat) (g : List Nat → List Nat) : AliasStore :=
  { s with arrayHeap := s.arrayHeap.set r (g (s.arrayHeap.getD r [])) }

/-- A subscriber mutating a field of a task object it can reach through a
received reference. -/
def writeTask (s : AliasStore) (r : Nat) (f : DownloadTask → DownloadTask) :
    AliasStore :=
  { s with taskHeap := s.taskHeap.set r (f (s.taskHeap.getD r defaultTask)) }

def c9Store : AliasStore :=
  { taskHeap := [mkTask ("X") ("mx") ("cx") ("s") DownloadStatus.DOWNLOADING],
    arrayHeap := [[0]], liveArr := 0 }

/-- C9 counterexample: the snapshot passed to subscribers is a *shallow*
copy.  A subscriber that mutates a task object reachable from the received
array — here, the element reference it finds at index 0 of the snapshot —
changes the Queue Store's internal task state: the store's view flips from
`DOWNLOADING` to `FAILED`.  So it is not true that no mutation a
subscriber performs on the value it receives can change the store's
internal task state. -/
theorem subscriber_field_write_changes_store_cex :
    ((storeTasks (writeTask (notifySnapshot c9Store).1
        (((notifySnapshot c9Store).1.arrayHeap.getD (notifySnapshot c9Store).2
          []).getD 0 0)
        (fun t => { t with status := DownloadStatus.FAILED }))).map
          (fun t => t.status) = [DownloadStatus.FAILED]) ∧
    (storeTasks c9Store).map (fun t => t.status)
      = [DownloadStatus.DOWNLOADING] := by decide

/-- C9 amended: the notified snapshot is a fresh array, so any mutation of
the received *array* itself — reordering, adding or removing elements —
leaves the store's internal array (and therefore `getTasks`) unchanged;
only field writes through the shared task objects leak
(`subscriber_field_write_changes_store_cex`). -/
theorem snapshot_array_isolated (s : AliasStore) (g : List Nat → List Nat)
    (hwf : s.liveArr < s.arrayHeap.length) :
    storeTasks (writeArray (notifySnapshot s).1 (notifySnapshot s).2 g)
      = storeTasks s ∧
    (writeArray (notifySnapshot s).1 (notifySnapshot s).2 g).arrayHeap.get?
        s.liveArr
      = s.arrayHeap.get? s.liveArr := by
  have hne : s.liveArr ≠ s.arrayHeap.length := by omega
  have hget : ∀ (c y : List Nat),
      ((s.arrayHeap ++ [c]).set s.arrayHeap.length y).get? s.liveArr
        = s.arrayHeap.get? s.liveArr := by
    intro c y
    rw [List.get?_set_ne _ _ (Ne.symm hne)]
    exact List.get?_append hwf
  constructor
  · show ((((s.arrayHeap ++ [s.arrayHeap.getD s.liveArr []]).set s.arrayHeap.length
      (g ((s.arrayHeap ++ [s.arrayHeap.getD s.liveArr []]).getD
        s.arrayHeap.length []))).getD s.liveArr []).filterMap
          (fun r => s.taskHeap.get? r))
      = (s.arrayHeap.getD s.liveArr []).filterMap (fun r => s.taskHeap.get? r)
    congr 1
    rw [List.getD_eq_getElem?_getD, List.getD_eq_getElem?_getD,
      ← List.get?_eq_getElem?, ← List.get?_eq_getElem?, hget]
  · exact hget _ _

/-- Witness for `snapshot_array_isolated`: a subscriber clearing the
snapshot array it received leaves the store's live array and task view
untouched. -/
theorem snapshot_array_isolated_witness :
    (storeTasks (writeArray (notifySnapshot c9Store).1 (notifySnapshot c9Store).2
        (fun _ => []))
      = storeTasks c9Store ∧
    (writeArray (notifySnapshot c9Store).1 (notifySnapshot c9Store).2
        (fun _ => [])).arrayHeap.get? c9Store.liveArr
      = c9Store.arrayHeap.get? c9Store.liveArr) :=
  snapshot_array_isolated c9Store (fun _ => []) (by decide)
